import Mathlib

/-!
Verification of the guardrail core of the Arcas platform: the sensitive-data
scanner, redactor, mapping builder, restorer and reveal predicate, embedded
shallowly over character lists.  Definitions mirror the TypeScript source
(src/lib/guardrail.ts and the storage/context modules); theorems settle the
spec's claims about them.
-/

namespace Guardrail

/-- Strings are modelled as explicit character lists. -/
abbrev Str := List Char

/-- Shorthand turning a string literal into its character list. -/
def str (s : String) : Str := s.data

/-- The fixed enumeration of sensitive-information categories
(type SensitiveInfoType in the source). -/
inductive SType where
  | email
  | credit_card
  | ssn
  | api_key
  | password
  | phone
  | address
  | name
  | username
  | ip_address
  | date_of_birth
  | bank_reference
  | medical_reference
deriving DecidableEq

/-- Rendering of a category tag as it appears in item identifiers
(JS string interpolation of the type field). -/
def typeStr : SType → Str
  | .email => str "email"
  | .credit_card => str "credit_card"
  | .ssn => str "ssn"
  | .api_key => str "api_key"
  | .password => str "password"
  | .phone => str "phone"
  | .address => str "address"
  | .name => str "name"
  | .username => str "username"
  | .ip_address => str "ip_address"
  | .date_of_birth => str "date_of_birth"
  | .bank_reference => str "bank_reference"
  | .medical_reference => str "medical_reference"

/-- One detected sensitive span (interface SensitiveItem in the source). -/
structure SensitiveItem where
  id : Str
  type : SType
  label : Str
  original : Str
  replacement : Str
  startIndex : Nat
  endIndex : Nat
  ignored : Bool
deriving DecidableEq

/-- Source function rangesOverlap: half-open ranges intersect,
tested as a[0] < b[1] and b[0] < a[1]. -/
def rangesOverlap (a b : Nat × Nat) : Bool :=
  decide (a.1 < b.2) && decide (b.1 < a.2)

/-- Stable insertion step for the model of JS Array.prototype.sort:
x is placed before the first element y with le x y. -/
def insertLe (le : α → α → Bool) (x : α) : List α → List α
  | [] => [x]
  | y :: ys => if le x y then x :: y :: ys else y :: insertLe le x ys

/-- Stable sort (model of JS Array.prototype.sort with a consistent
comparator; ECMAScript sort is specified to be stable, and any stable sort
for the same preorder yields the same list). -/
def sortLe (le : α → α → Bool) : List α → List α
  | [] => []
  | x :: xs => insertLe le x (sortLe le xs)

/-- One splice step of applyReplacements:
result.substring(0, start) + replacement + result.substring(end).
List.take and List.drop clamp exactly as JS String.prototype.substring does. -/
def splice (text : Str) (it : SensitiveItem) : Str :=
  text.take it.startIndex ++ it.replacement ++ text.drop it.endIndex

/-- Source function applyReplacements: keep the non-ignored items, sort them
by descending startIndex (comparator (a, b) => b.startIndex - a.startIndex),
then splice each into the text from the right. -/
def applyReplacements (text : Str) (items : List SensitiveItem) : Str :=
  (sortLe (fun a b => decide (b.startIndex ≤ a.startIndex))
    (items.filter (fun it => !it.ignored))).foldl splice text

/-- A placeholder-to-original mapping, modelled as an association list in JS
object insertion order (string keys of the form [PREFIX_N] are not array
indices, so Object.entries enumerates them in insertion order, and assigning
to an existing key keeps its position). -/
abbrev ReplacementMapping := List (Str × Str)

/-- Key membership in an association list. -/
def containsEntry (m : List (Str × α)) (k : Str) : Bool :=
  m.any (fun kv => kv.1 == k)

/-- JS object assignment m[k] = v: overwrite in place if the key exists,
otherwise append the new entry. -/
def setEntry (m : List (Str × α)) (k : Str) (v : α) : List (Str × α) :=
  if containsEntry m k then m.map (fun kv => if kv.1 == k then (k, v) else kv)
  else m ++ [(k, v)]

/-- JS object read m[k] as an Option. -/
def getEntry (m : List (Str × α)) (k : Str) : Option α :=
  (m.find? (fun kv => kv.1 == k)).map Prod.snd

/-- Source function buildReplacementMapping: for each non-ignored item, in
list order, set mapping[item.replacement] = item.original. -/
def buildReplacementMapping (items : List SensitiveItem) : ReplacementMapping :=
  items.foldl
    (fun m it => if !it.ignored then setEntry m it.replacement it.original else m) []

/-- Scanning core of JS String.prototype.replaceAll with a string pattern:
structural one-pass scan; skip counts characters still covered by the last
replaced occurrence.  Matching restarts after a replaced occurrence, so
overlapping occurrences are replaced leftmost-first, exactly as in JS. -/
def replaceAllGo (pat rep : Str) : Nat → Str → Str
  | _, [] => []
  | skip+1, _ :: rest => replaceAllGo pat rep skip rest
  | 0, c :: rest =>
    if pat.isPrefixOf (c :: rest) ∧ 1 ≤ pat.length then
      rep ++ replaceAllGo pat rep (pat.length - 1) rest
    else c :: replaceAllGo pat rep 0 rest

/-- JS String.prototype.replaceAll with a string pattern.  The empty pattern
matches at every position ("abc".replaceAll("", "X") is "XaXbXcX"). -/
def replaceAll (s pat rep : Str) : Str :=
  if pat = [] then rep ++ (s.map (fun c => c :: rep)).flatten
  else replaceAllGo pat rep 0 s

/-- Source function restoreOriginals: fold replaceAll over the mapping
entries in insertion order. -/
def restoreOriginals (text : Str) (mapping : ReplacementMapping) : Str :=
  mapping.foldl (fun result kv => replaceAll result kv.1 kv.2) text

/-- JS String.prototype.includes: the pattern occurs as a contiguous
substring (the empty pattern occurs in every string). -/
def strIncludes (s pat : Str) : Bool :=
  match s with
  | [] => pat.isEmpty
  | _ :: rest => pat.isPrefixOf s || strIncludes rest pat

/-- Source function hasMappablePlaceholders: false on empty text or empty
mapping, else true iff some key occurs in the text (text.includes(ph)). -/
def hasMappablePlaceholders (text : Str) (mapping : ReplacementMapping) : Bool :=
  if text.isEmpty || mapping.isEmpty then false
  else mapping.any (fun kv => strIncludes text kv.1)

/-! ## Regular-expression engine

The source uses JS RegExp objects.  They are embedded as an abstract syntax
tree plus a fuel-bounded backtracking matcher implementing ECMAScript
semantics: leftmost match position, ordered alternation, greedy
quantifiers with backtracking, word boundaries, lookahead and (existential)
lookbehind.  The matcher works on a zipper (reversed prefix, suffix) so that
boundary and lookbehind assertions can consult preceding characters. -/

/-- JS lowercasing restricted to ASCII and Latin-1 letters (sufficient for
every character the source patterns and block list mention). -/
def toLowerCh (c : Char) : Char :=
  if 'A' ≤ c ∧ c ≤ 'Z' then Char.ofNat (c.toNat + 32)
  else if ('À' ≤ c ∧ c ≤ 'Þ') ∧ c ≠ '×' then Char.ofNat (c.toNat + 32)
  else c

/-- JS uppercasing restricted to ASCII and Latin-1 letters. -/
def toUpperCh (c : Char) : Char :=
  if 'a' ≤ c ∧ c ≤ 'z' then Char.ofNat (c.toNat - 32)
  else if ('à' ≤ c ∧ c ≤ 'þ') ∧ c ≠ '÷' then Char.ofNat (c.toNat - 32)
  else c

/-- Regex syntax: the constructs used by the source registry.  lbFrom is the
internal state of the lookbehind search (split position being tried). -/
inductive RE where
  | eps
  | cls (p : Char → Bool)
  | seq (a b : RE)
  | alt (a b : RE)
  | rep (a : RE) (lo : Nat) (hi : Option Nat)
  | wordBoundary
  | lookahead (a : RE)
  | lookbehind (a : RE)
  | lbFrom (a : RE) (j : Nat)

/-- JS word character for the boundary assertion: [A-Za-z0-9_]. -/
def isWordChar (c : Char) : Bool :=
  (decide ('a' ≤ c) && decide (c ≤ 'z')) || (decide ('A' ≤ c) && decide (c ≤ 'Z')) ||
    (decide ('0' ≤ c) && decide (c ≤ '9')) || c == '_'

/-- Word-character test of the first character (false at a string end). -/
def headWord : Str → Bool
  | [] => false
  | c :: _ => isWordChar c

/-- JS word boundary: exactly one adjacent side is a word character.  pre is
the reversed prefix, so its head is the preceding character. -/
def atWordBoundary (pre suf : Str) : Bool :=
  headWord pre != headWord suf

/-- Decrement of an optional repetition bound. -/
def decOpt : Option Nat → Option Nat
  | none => none
  | some m => some (m - 1)

/-- Backtracking matcher in continuation-passing style.  mrun fuel re pre suf
k matches re at the zipper position (pre, suf) and calls k at each candidate
end zipper in ECMAScript preference order, returning the first success.
Repetition follows the ECMA RepeatMatcher: greedy, with the rule that an
iteration of the body that consumes nothing fails once the minimum count is
exhausted.  Fuel only bounds recursion depth; it is chosen generously by
callers. -/
def mrun : Nat → RE → Str → Str → (Str → Str → Option Nat) → Option Nat
  | 0, _, _, _, _ => none
  | fuel+1, re, pre, suf, k =>
    match re with
    | .eps => k pre suf
    | .cls p =>
      match suf with
      | [] => none
      | c :: rest => if p c then k (c :: pre) rest else none
    | .seq a b => mrun fuel a pre suf (fun pre1 suf1 => mrun fuel b pre1 suf1 k)
    | .alt a b =>
      match mrun fuel a pre suf k with
      | some r => some r
      | none => mrun fuel b pre suf k
    | .rep a lo hi =>
      if hi = some 0 then k pre suf
      else
        match mrun fuel a pre suf (fun pre1 suf1 =>
            if lo = 0 ∧ suf1.length = suf.length then none
            else mrun fuel (.rep a (lo - 1) (decOpt hi)) pre1 suf1 k) with
        | some r => some r
        | none => if lo = 0 then k pre suf else none
    | .wordBoundary => if atWordBoundary pre suf then k pre suf else none
    | .lookahead a =>
      match mrun fuel a pre suf (fun _ _ => some 0) with
      | some _ => k pre suf
      | none => none
    | .lookbehind a => mrun fuel (.lbFrom a 0) pre suf k
    | .lbFrom a j =>
      if pre.length < j then none
      else
        match mrun fuel a (pre.drop j) ((pre.take j).reverse)
            (fun _ s2 => if s2.isEmpty then some 0 else none) with
        | some _ => k pre suf
        | none => mrun fuel (.lbFrom a (j + 1)) pre suf k

/-- Fuel sufficient for any match attempt at this position (depth of the
backtracking recursion is bounded by the pattern size plus the number of
characters any chain of quantifier iterations can consume). -/
def matchFuel (pre suf : Str) : Nat := 2 * (pre.length + suf.length) + 800

/-- Length of the match of re starting exactly at the zipper position, if
any (the length JS RegExp would report for a match at this index). -/
def matchAt (re : RE) (pre suf : Str) : Option Nat :=
  mrun (matchFuel pre suf) re pre suf (fun _ suf1 => some (suf.length - suf1.length))

/-- The successive matches of one global regex over the text, as (start, end)
offset pairs: the JS exec loop attempts a match at each position from
lastIndex onwards and resumes after each match.  A zero-length match would
make the source's while loop spin forever, so no further matches are
produced past it (no registry pattern can match the empty string, see
minLen below). -/
def execGo : Nat → RE → Str → Str → Nat → List (Nat × Nat)
  | 0, _, _, _, _ => []
  | fuel+1, re, pre, suf, pos =>
    match matchAt re pre suf with
    | some len =>
      if len = 0 then []
      else
        (pos, pos + len) ::
          execGo fuel re ((suf.take len).reverse ++ pre) (suf.drop len) (pos + len)
    | none =>
      match suf with
      | [] => []
      | c :: rest => execGo fuel re (c :: pre) rest (pos + 1)

/-- All matches of a global regex over a text (regex.exec driven to
exhaustion with a fresh lastIndex, as detectSensitiveInfo does). -/
def execAll (re : RE) (text : Str) : List (Nat × Nat) :=
  execGo (text.length + 1) re [] text 0

/-- Syntactic lower bound on the number of characters a regex consumes. -/
def minLen : RE → Nat
  | .eps => 0
  | .cls _ => 1
  | .seq a b => minLen a + minLen b
  | .alt a b => min (minLen a) (minLen b)
  | .rep a lo hi => min lo (hi.getD lo) * minLen a
  | .wordBoundary => 0
  | .lookahead _ => 0
  | .lookbehind _ => 0
  | .lbFrom _ _ => 0

/-! ### Combinators used to transcribe the source registry's regexes -/

/-- Sequencing of a regex list. -/
def rseq : List RE → RE
  | [] => .eps
  | [r] => r
  | r :: rs => .seq r (rseq rs)

/-- Ordered alternation r | rs₀ | rs₁ | ... (JS prefers the left branch). -/
def ralt (r : RE) (rs : List RE) : RE :=
  match rs with
  | [] => r
  | s :: t => .alt r (ralt s t)

/-- Literal character. -/
def chEq (c : Char) : RE := .cls (fun x => x == c)

/-- Literal character under the i flag (Latin-1 case folding). -/
def chEqCI (c : Char) : RE := .cls (fun x => toLowerCh x == toLowerCh c)

/-- Literal string. -/
def lit (s : Str) : RE := rseq (s.map chEq)

/-- Literal string under the i flag. -/
def litCI (s : Str) : RE := rseq (s.map chEqCI)

/-- Character class under the i flag: a character matches if itself or one of
its case foldings is in the class (ECMAScript canonicalization restricted to
the Latin-1 letters the registry uses). -/
def clsCI (p : Char → Bool) : RE :=
  .cls (fun c => p c || p (toLowerCh c) || p (toUpperCh c))

/-- Kleene star (greedy). -/
def rstar (r : RE) : RE := .rep r 0 none

/-- One or more (greedy). -/
def rplus (r : RE) : RE := .rep r 1 none

/-- Optional (greedy). -/
def ropt (r : RE) : RE := .rep r 0 (some 1)

/-- Exactly n repetitions. -/
def rexact (r : RE) (n : Nat) : RE := .rep r n (some n)

/-- Between lo and hi repetitions (greedy). -/
def rrange (r : RE) (lo hi : Nat) : RE := .rep r lo (some hi)

/-- At least lo repetitions (greedy). -/
def ratleast (r : RE) (lo : Nat) : RE := .rep r lo none

/-- Set membership class. -/
def inSet (s : Str) (c : Char) : Bool := s.contains c

/-- Range class. -/
def inRange (lo hi c : Char) : Bool := decide (lo ≤ c) && decide (c ≤ hi)

/-- Class \d. -/
def jsDigit (c : Char) : Bool := inRange '0' '9' c

/-- Class \s (the whitespace characters relevant to the embedded texts). -/
def jsSpace (c : Char) : Bool :=
  inSet [' ', '\t', '\n', '\r', Char.ofNat 11, Char.ofNat 12, Char.ofNat 160] c

/-- Class [a-zA-Z]. -/
def asciiAlpha (c : Char) : Bool := inRange 'a' 'z' c || inRange 'A' 'Z' c

/-- Class [a-zA-Z0-9]. -/
def alnum (c : Char) : Bool := asciiAlpha c || jsDigit c

/-- Class [A-Z]. -/
def upper (c : Char) : Bool := inRange 'A' 'Z' c

/-- Class [a-z]. -/
def lower (c : Char) : Bool := inRange 'a' 'z' c

/-- The per-conversation mapping store persisted by the storage module
(Record of conversationId to ReplacementMapping). -/
abbrev MappingStore := List (Str × ReplacementMapping)

/-- Spread merge of two mappings: {...old, ...added} — old entries in order
with same-key values overridden, new keys appended. -/
def mergeMappings (old added : ReplacementMapping) : ReplacementMapping :=
  added.foldl (fun acc kv => setEntry acc kv.1 kv.2) old

/-- Source function saveReplacementMapping (storage module):
all[conversationId] = { ...all[conversationId], ...mapping }.  The context
module's updateReplacementMapping performs the same spread merge on
conv.replacementMappings. -/
def saveReplacementMapping (all : MappingStore) (conversationId : Str)
    (mapping : ReplacementMapping) : MappingStore :=
  setEntry all conversationId
    (mergeMappings ((getEntry all conversationId).getD []) mapping)

/-! ## The detection pattern registry

Each definition transcribes one RegExp literal of DETECTION_PATTERNS; the
source regex is quoted in the doc comment. -/

/-- Email: [a-zA-Z0-9._%+-]+@[a-zA-Z0-9.-]+\.[a-zA-Z]\x7b2,\x7d (flags g). -/
def reEmail : RE :=
  rseq [rplus (.cls (fun c => alnum c || inSet (str "._%+-") c)), chEq '@',
    rplus (.cls (fun c => alnum c || inSet (str ".-") c)), chEq '.',
    ratleast (.cls asciiAlpha) 2]

/-- Credit card: \b(?:\d\x7b4\x7d[-\s]?)\x7b3\x7d\d\x7b4\x7d\b (flags g). -/
def reCreditCard : RE :=
  rseq [.wordBoundary,
    rexact (rseq [rexact (.cls jsDigit) 4,
      ropt (.cls (fun c => c == '-' || jsSpace c))]) 3,
    rexact (.cls jsDigit) 4, .wordBoundary]

/-- SSN: \b\d\x7b3\x7d-\d\x7b2\x7d-\d\x7b4\x7d\b (flags g). -/
def reSSN : RE :=
  rseq [.wordBoundary, rexact (.cls jsDigit) 3, chEq '-', rexact (.cls jsDigit) 2,
    chEq '-', rexact (.cls jsDigit) 4, .wordBoundary]

/-- API key: \b(?:sk|api|key|token|secret)[-_][a-zA-Z0-9]\x7b16,\x7d\b (flags gi). -/
def reApiKey : RE :=
  rseq [.wordBoundary,
    ralt (litCI (str "sk")) [litCI (str "api"), litCI (str "key"),
      litCI (str "token"), litCI (str "secret")],
    .cls (inSet (str "-_")), ratleast (.cls alnum) 16, .wordBoundary]

/-- Password: (?:password|passwd|pwd|secret|credential)[\s]*[:=][\s]*\S+
(flags gi). -/
def rePassword : RE :=
  rseq [ralt (litCI (str "password")) [litCI (str "passwd"), litCI (str "pwd"),
      litCI (str "secret"), litCI (str "credential")],
    rstar (.cls jsSpace), .cls (inSet (str ":=")), rstar (.cls jsSpace),
    rplus (.cls (fun c => !jsSpace c))]

/-- Separator class [\s.-] of the phone pattern. -/
def sepCh (c : Char) : Bool := jsSpace c || c == '.' || c == '-'

/-- Phone, international branch:
\+\d\x7b1,3\x7d[\s.-]?(?:\d[\s.-]?)\x7b8,14\x7d\d\b. -/
def rePhoneIntl : RE :=
  rseq [chEq '+', rrange (.cls jsDigit) 1 3, ropt (.cls sepCh),
    rrange (rseq [.cls jsDigit, ropt (.cls sepCh)]) 8 14, .cls jsDigit,
    .wordBoundary]

/-- Phone, North-American branch:
(?:\+?1[-.\s]?)?\(?\d\x7b3\x7d\)?[-.\s]?\d\x7b3\x7d[-.\s]?\d\x7b4\x7d\b. -/
def rePhoneUS : RE :=
  rseq [ropt (rseq [ropt (chEq '+'), chEq '1', ropt (.cls sepCh)]),
    ropt (chEq '('), rexact (.cls jsDigit) 3, ropt (chEq ')'), ropt (.cls sepCh),
    rexact (.cls jsDigit) 3, ropt (.cls sepCh), rexact (.cls jsDigit) 4,
    .wordBoundary]

/-- Phone: the two branches in source order (flags g). -/
def rePhone : RE := .alt rePhoneIntl rePhoneUS

/-- Class [A-Za-zäöüßÄÖÜ]. -/
def deLetter (c : Char) : Bool := asciiAlpha c || inSet (str "äöüßÄÖÜ") c

/-- Class [A-Za-zäöüßÄÖÜ\s]. -/
def deLetterSp (c : Char) : Bool := deLetter c || jsSpace c

/-- European address (flags gi):
\b[A-Za-zäöüßÄÖÜ][A-Za-zäöüßÄÖÜ\w]*(?:strasse|straße|platz|weg|gasse|street|road|avenue)\s+\d\x7b1,5\x7d,\s*\d\x7b4,6\x7d\s+[A-Za-zäöüßÄÖÜ][A-Za-zäöüßÄÖÜ\s]*(?:,\s*[A-Za-zäöüßÄÖÜ\s]+)? -/
def reAddressEU : RE :=
  rseq [.wordBoundary, clsCI deLetter,
    rstar (clsCI (fun c => deLetter c || isWordChar c)),
    ralt (litCI (str "strasse")) [litCI (str "straße"), litCI (str "platz"),
      litCI (str "weg"), litCI (str "gasse"), litCI (str "street"),
      litCI (str "road"), litCI (str "avenue")],
    rplus (.cls jsSpace), rrange (.cls jsDigit) 1 5, chEq ',',
    rstar (.cls jsSpace), rrange (.cls jsDigit) 4 6, rplus (.cls jsSpace),
    clsCI deLetter, rstar (clsCI deLetterSp),
    ropt (rseq [chEq ',', rstar (.cls jsSpace), rplus (clsCI deLetterSp)])]

/-- US address (flags g):
\b\d\x7b1,5\x7d\s+[A-Z][a-zA-ZäöüßÄÖÜ]*(?:\s+[A-Za-zäöüßÄÖÜ]+)*\s+(?:St(?:reet)?|Ave(?:nue)?|Blvd|Boulevard|Dr(?:ive)?|Rd|Road|Ln|Lane|Way|Ct|Court|Pl(?:ace)?|Cir(?:cle)?)\.?(?:\s*,?\s*[A-Z][a-zA-Z\s]*,?\s*[A-Z]\x7b2\x7d\s*\d\x7b5\x7d(?:-\d\x7b4\x7d)?)? -/
def reAddressUS : RE :=
  rseq [.wordBoundary, rrange (.cls jsDigit) 1 5, rplus (.cls jsSpace),
    .cls upper, rstar (.cls deLetter),
    rstar (rseq [rplus (.cls jsSpace), rplus (.cls deLetter)]),
    rplus (.cls jsSpace),
    ralt (rseq [lit (str "St"), ropt (lit (str "reet"))])
      [rseq [lit (str "Ave"), ropt (lit (str "nue"))], lit (str "Blvd"),
       lit (str "Boulevard"), rseq [lit (str "Dr"), ropt (lit (str "ive"))],
       lit (str "Rd"), lit (str "Road"), lit (str "Ln"), lit (str "Lane"),
       lit (str "Way"), lit (str "Ct"), lit (str "Court"),
       rseq [lit (str "Pl"), ropt (lit (str "ace"))],
       rseq [lit (str "Cir"), ropt (lit (str "cle"))]],
    ropt (chEq '.'),
    ropt (rseq [rstar (.cls jsSpace), ropt (chEq ','), rstar (.cls jsSpace),
      .cls upper, rstar (.cls (fun c => asciiAlpha c || jsSpace c)),
      ropt (chEq ','), rstar (.cls jsSpace), rexact (.cls upper) 2,
      rstar (.cls jsSpace), rexact (.cls jsDigit) 5,
      ropt (rseq [chEq '-', rexact (.cls jsDigit) 4])])]

/-- Number-first address (flags g):
\b\d\x7b1,5\x7d\s+[A-Za-zäöüßÄÖÜ][A-Za-zäöüßÄÖÜ\s]*,\s*\d\x7b4,6\x7d\s+[A-Za-zäöüßÄÖÜ][A-Za-zäöüßÄÖÜ\s]*(?:,\s*[A-Za-zäöüßÄÖÜ\s]+)? -/
def reAddressNum : RE :=
  rseq [.wordBoundary, rrange (.cls jsDigit) 1 5, rplus (.cls jsSpace),
    .cls deLetter, rstar (.cls deLetterSp), chEq ',', rstar (.cls jsSpace),
    rrange (.cls jsDigit) 4 6, rplus (.cls jsSpace), .cls deLetter,
    rstar (.cls deLetterSp),
    ropt (rseq [chEq ',', rstar (.cls jsSpace), rplus (.cls deLetterSp)])]

/-- Class [A-ZÀ-ÿ] (note À-ÿ also covers the lowercase Latin-1 letters). -/
def upperName (c : Char) : Bool :=
  upper c || (decide ('À' ≤ c) && decide (c ≤ 'ÿ'))

/-- Class [a-zà-ÿ]. -/
def lowerName (c : Char) : Bool :=
  lower c || (decide ('à' ≤ c) && decide (c ≤ 'ÿ'))

/-- One capitalized word [A-ZÀ-ÿ][a-zà-ÿ]+. -/
def capWord : RE := rseq [.cls upperName, rplus (.cls lowerName)]

/-- Titled personal name (flags g):
\b(?:Mr|Mrs|Ms|Miss|Dr|Prof)\.?\s+[A-ZÀ-ÿ][a-zà-ÿ]+(?:\s+[A-ZÀ-ÿ][a-zà-ÿ]+)+\b -/
def reNameTitled : RE :=
  rseq [.wordBoundary,
    ralt (lit (str "Mr")) [lit (str "Mrs"), lit (str "Ms"), lit (str "Miss"),
      lit (str "Dr"), lit (str "Prof")],
    ropt (chEq '.'), rplus (.cls jsSpace), capWord,
    rplus (rseq [rplus (.cls jsSpace), capWord]), .wordBoundary]

/-- Contextual personal name (flags g):
\b[A-ZÀ-ÿ][a-zà-ÿ]+(?:\s+[A-ZÀ-ÿ][a-zà-ÿ]+)+\b(?=\s*[,.]?\s*(?:born|lives|works|can be reached|logs in|was|is|has|her|his)\b) -/
def reNameContext : RE :=
  rseq [.wordBoundary, capWord, rplus (rseq [rplus (.cls jsSpace), capWord]),
    .wordBoundary,
    .lookahead (rseq [rstar (.cls jsSpace), ropt (.cls (inSet (str ",."))),
      rstar (.cls jsSpace),
      ralt (lit (str "born")) [lit (str "lives"), lit (str "works"),
        lit (str "can be reached"), lit (str "logs in"), lit (str "was"),
        lit (str "is"), lit (str "has"), lit (str "her"), lit (str "his")],
      .wordBoundary])]

/-- Class [\d_.-]. -/
def midCh (c : Char) : Bool := jsDigit c || inSet (str "_.-") c

/-- Class [a-zA-Z0-9_.-]. -/
def unameCh (c : Char) : Bool := alnum c || inSet (str "_.-") c

/-- Username after the word username (flags gi):
(?<=username\s+)[a-zA-Z0-9]*[\d_.-][a-zA-Z0-9_.-]\x7b1,30\x7d\b -/
def reUsernameAfter : RE :=
  rseq [.lookbehind (rseq [litCI (str "username"), rplus (.cls jsSpace)]),
    rstar (.cls alnum), .cls midCh, rrange (.cls unameCh) 1 30, .wordBoundary]

/-- Username before a cue word (flags gi):
\b[a-zA-Z0-9]*[\d_.-][a-zA-Z0-9_.-]\x7b1,30\x7d\b(?=\s+(?:from|to|@|logs|using)\s) -/
def reUsernameBefore : RE :=
  rseq [.wordBoundary, rstar (.cls alnum), .cls midCh,
    rrange (.cls unameCh) 1 30, .wordBoundary,
    .lookahead (rseq [rplus (.cls jsSpace),
      ralt (litCI (str "from")) [litCI (str "to"), chEqCI '@',
        litCI (str "logs"), litCI (str "using")],
      .cls jsSpace])]

/-- Username in the phrase using the username (flags gi):
(?<=using\s+the\s+username\s+)[a-zA-Z0-9]*[\d_.-][a-zA-Z0-9_.-]\x7b1,29\x7d\b -/
def reUsernameUsingThe : RE :=
  rseq [.lookbehind (rseq [litCI (str "using"), rplus (.cls jsSpace),
      litCI (str "the"), rplus (.cls jsSpace), litCI (str "username"),
      rplus (.cls jsSpace)]),
    rstar (.cls alnum), .cls midCh, rrange (.cls unameCh) 1 29, .wordBoundary]

/-- One IPv4 octet: 25[0-5]|2[0-4]\d|1?\d\d?. -/
def octet : RE :=
  ralt (rseq [lit (str "25"), .cls (inSet (str "012345"))])
    [rseq [chEq '2', .cls (inSet (str "01234")), .cls jsDigit],
     rseq [ropt (chEq '1'), .cls jsDigit, ropt (.cls jsDigit)]]

/-- IPv4 address (flags g):
\b(?:(?:25[0-5]|2[0-4]\d|1?\d\d?)\.)\x7b3\x7d(?:25[0-5]|2[0-4]\d|1?\d\d?)\b -/
def reIP : RE :=
  rseq [.wordBoundary, rexact (rseq [octet, chEq '.']) 3, octet, .wordBoundary]

/-- The month-name alternation, case-insensitive. -/
def monthAltCI : RE :=
  ralt (litCI (str "January")) [litCI (str "February"), litCI (str "March"),
    litCI (str "April"), litCI (str "May"), litCI (str "June"),
    litCI (str "July"), litCI (str "August"), litCI (str "September"),
    litCI (str "October"), litCI (str "November"), litCI (str "December")]

/-- The month-name alternation, case-sensitive. -/
def monthAltCS : RE :=
  ralt (lit (str "January")) [lit (str "February"), lit (str "March"),
    lit (str "April"), lit (str "May"), lit (str "June"), lit (str "July"),
    lit (str "August"), lit (str "September"), lit (str "October"),
    lit (str "November"), lit (str "December")]

/-- Date of birth, day month year (flags gi):
\b(?:born\s+on\s+)?\d\x7b1,2\x7d\s+(?:January|...|December)\s+\d\x7b4\x7d\b -/
def reDOB1 : RE :=
  rseq [.wordBoundary,
    ropt (rseq [litCI (str "born"), rplus (.cls jsSpace), litCI (str "on"),
      rplus (.cls jsSpace)]),
    rrange (.cls jsDigit) 1 2, rplus (.cls jsSpace), monthAltCI,
    rplus (.cls jsSpace), rexact (.cls jsDigit) 4, .wordBoundary]

/-- Date of birth, month day year (flags g):
\b(?:January|...|December)\s+\d\x7b1,2\x7d,?\s+\d\x7b4\x7d\b -/
def reDOB2 : RE :=
  rseq [.wordBoundary, monthAltCS, rplus (.cls jsSpace),
    rrange (.cls jsDigit) 1 2, ropt (chEq ','), rplus (.cls jsSpace),
    rexact (.cls jsDigit) 4, .wordBoundary]

/-- Date of birth, ISO (flags g): \b\d\x7b4\x7d-\d\x7b2\x7d-\d\x7b2\x7d\b -/
def reDOB3 : RE :=
  rseq [.wordBoundary, rexact (.cls jsDigit) 4, chEq '-',
    rexact (.cls jsDigit) 2, chEq '-', rexact (.cls jsDigit) 2, .wordBoundary]

/-- Date of birth, dotted or slashed (flags g):
\b\d\x7b1,2\x7d[./]\d\x7b1,2\x7d[./]\d\x7b4\x7d\b -/
def reDOB4 : RE :=
  rseq [.wordBoundary, rrange (.cls jsDigit) 1 2, .cls (inSet (str "./")),
    rrange (.cls jsDigit) 1 2, .cls (inSet (str "./")),
    rexact (.cls jsDigit) 4, .wordBoundary]

/-- Bank reference (flags gi):
\b(?:bank\s+account|account\s+at\s+(?:a\s+)?(?:Swiss|local|their)\s+bank)\b -/
def reBank : RE :=
  rseq [.wordBoundary,
    .alt (rseq [litCI (str "bank"), rplus (.cls jsSpace), litCI (str "account")])
      (rseq [litCI (str "account"), rplus (.cls jsSpace), litCI (str "at"),
        rplus (.cls jsSpace), ropt (rseq [litCI (str "a"), rplus (.cls jsSpace)]),
        ralt (litCI (str "Swiss")) [litCI (str "local"), litCI (str "their")],
        rplus (.cls jsSpace), litCI (str "bank")]),
    .wordBoundary]

/-- Medical reference (flags gi):
\b(?:health\s+insurance\s+records?|medical\s+(?:visits?|records?|history)|patient\s+information)\b -/
def reMedical : RE :=
  rseq [.wordBoundary,
    ralt (rseq [litCI (str "health"), rplus (.cls jsSpace),
        litCI (str "insurance"), rplus (.cls jsSpace), litCI (str "record"),
        ropt (chEqCI 's')])
      [rseq [litCI (str "medical"), rplus (.cls jsSpace),
        ralt (rseq [litCI (str "visit"), ropt (chEqCI 's')])
          [rseq [litCI (str "record"), ropt (chEqCI 's')],
           litCI (str "history")]],
       rseq [litCI (str "patient"), rplus (.cls jsSpace),
         litCI (str "information")]],
    .wordBoundary]

/-- One registry entry: category, label, matcher, placeholder prefix string
(interface DetectionPattern in the source). -/
structure DetectionPattern where
  ptype : SType
  label : Str
  re : RE
  pfx : Str

/-- The ordered registry DETECTION_PATTERNS of the source. -/
def DETECTION_PATTERNS : List DetectionPattern :=
  [⟨.email, str "Email Address", reEmail, str "EMAIL"⟩,
   ⟨.credit_card, str "Credit Card Number", reCreditCard, str "CREDIT_CARD"⟩,
   ⟨.ssn, str "Social Security Number", reSSN, str "SSN"⟩,
   ⟨.api_key, str "API Key", reApiKey, str "API_KEY"⟩,
   ⟨.password, str "Password / Credential", rePassword, str "PASSWORD"⟩,
   ⟨.phone, str "Phone Number", rePhone, str "PHONE"⟩,
   ⟨.address, str "Physical Address", reAddressEU, str "ADDRESS"⟩,
   ⟨.address, str "Physical Address", reAddressUS, str "ADDRESS"⟩,
   ⟨.address, str "Physical Address", reAddressNum, str "ADDRESS"⟩,
   ⟨.name, str "Personal Name", reNameTitled, str "NAME"⟩,
   ⟨.name, str "Personal Name", reNameContext, str "NAME"⟩,
   ⟨.username, str "Username", reUsernameAfter, str "USERNAME"⟩,
   ⟨.username, str "Username", reUsernameBefore, str "USERNAME"⟩,
   ⟨.username, str "Username", reUsernameUsingThe, str "USERNAME"⟩,
   ⟨.ip_address, str "IP Address", reIP, str "IP_ADDRESS"⟩,
   ⟨.date_of_birth, str "Date of Birth", reDOB1, str "DOB"⟩,
   ⟨.date_of_birth, str "Date of Birth", reDOB2, str "DOB"⟩,
   ⟨.date_of_birth, str "Date of Birth", reDOB3, str "DOB"⟩,
   ⟨.date_of_birth, str "Date of Birth", reDOB4, str "DOB"⟩,
   ⟨.bank_reference, str "Bank / Account Reference", reBank, str "BANK_REF"⟩,
   ⟨.medical_reference, str "Medical / Health Reference", reMedical,
     str "MEDICAL_REF"⟩]

/-! ## The scanner (detectSensitiveInfo) -/

/-- Decimal digit character (as produced by JS number-to-string). -/
def digitCh (d : Nat) : Char :=
  match d with
  | 0 => '0' | 1 => '1' | 2 => '2' | 3 => '3' | 4 => '4'
  | 5 => '5' | 6 => '6' | 7 => '7' | 8 => '8' | _ => '9'

/-- Accumulator loop of the decimal rendering (fuel-bounded, most
significant digit first). -/
def natDigitsGo : Nat → Nat → Str → Str
  | 0, _, acc => acc
  | fuel+1, n, acc =>
    if n = 0 then acc else natDigitsGo fuel (n / 10) (digitCh (n % 10) :: acc)

/-- Decimal rendering of a natural number (JS template interpolation of a
nonnegative integer). -/
def natRepr (n : Nat) : Str :=
  if n = 0 then ['0'] else natDigitsGo (n + 1) n []

/-- Placeholder text [PREFIX_N] built by getPlaceholder. -/
def mkPlaceholder (pfx : Str) (n : Nat) : Str :=
  '[' :: (pfx ++ '_' :: (natRepr n ++ [']']))

/-- Item identifier type-start-end built at acceptance. -/
def mkId (t : SType) (s e : Nat) : Str :=
  typeStr t ++ '-' :: (natRepr s ++ '-' :: natRepr e)

/-- Digit test for the validator digit counts ([^0-9] is stripped). -/
def isDigitCh (c : Char) : Bool := decide ('0' ≤ c) && decide (c ≤ '9')

/-- Length of match[0].replace(/\D/g, the empty string): the number of digit
characters of the match. -/
def countDigits (s : Str) : Nat := (s.filter isDigitCh).length

/-- The source's USERNAME_BLOCKLIST set of literal tokens. -/
def USERNAME_BLOCKLIST : List Str :=
  [str "and", str "the", str "her", str "his", str "from", str "to",
   str "for", str "are", str "can", str "has", str "had", str "not",
   str "you", str "your", str "daily", str "weekly", str "monthly",
   str "yearly", str "only", str "just", str "with", str "using",
   str "logs", str "log", str "into", str "out", str "all", str "any",
   str "new", str "old", str "own", str "see", str "way", str "how",
   str "who", str "what", str "when", str "where", str "may", str "will",
   str "would", str "could", str "should", str "about", str "after",
   str "before", str "between", str "under"]

/-- Source function looksLikeUsername: reject tokens whose lowercase form is
in the block list. -/
def looksLikeUsername (token : Str) : Bool :=
  !(USERNAME_BLOCKLIST.contains (token.map toLowerCh))

/-- Substring of the text at a half-open offset range (match[0] is exactly
this slice of the input). -/
def slice (text : Str) (s e : Nat) : Str := (text.drop s).take (e - s)

/-- One pattern of the registry together with the matches (field found, the
source's successive match objects) its regex yields on the text being
scanned. -/
structure PatternRun where
  ptype : SType
  label : Str
  pfx : Str
  found : List (Nat × Nat)

/-- The mutable state of one detectSensitiveInfo invocation: the per-prefix
placeholder counters, the accepted items and their claimed ranges. -/
structure ScanState where
  counters : List (Str × Nat)
  items : List SensitiveItem
  usedRanges : List (Nat × Nat)

/-- Counter read (counters[prefix] || 0). -/
def counterGet (cs : List (Str × Nat)) (p : Str) : Nat :=
  (getEntry cs p).getD 0

/-- Body of the source's inner while loop for one candidate match: reject on
range overlap, then the ssn, phone and username validators; otherwise accept
with a fresh placeholder (counters increment only on acceptance). -/
def processMatch (text : Str) (p : PatternRun) (st : ScanState) (m : Nat × Nat) :
    ScanState :=
  if st.usedRanges.any (fun r => rangesOverlap (m.1, m.2) r) then st
  else if p.ptype = .ssn ∧ countDigits (slice text m.1 m.2) ≠ 9 then st
  else if p.ptype = .phone ∧ (countDigits (slice text m.1 m.2) < 10 ∨
    15 < countDigits (slice text m.1 m.2)) then st
  else if p.ptype = .username ∧ looksLikeUsername (slice text m.1 m.2) = false
    then st
  else
    { counters := setEntry st.counters p.pfx (counterGet st.counters p.pfx + 1)
      items := st.items ++
        [⟨mkId p.ptype m.1 m.2, p.ptype, p.label, slice text m.1 m.2,
          mkPlaceholder p.pfx (counterGet st.counters p.pfx + 1), m.1, m.2,
          false⟩]
      usedRanges := st.usedRanges ++ [(m.1, m.2)] }

/-- All candidate matches of one pattern, in exec order. -/
def runPattern (text : Str) (st : ScanState) (p : PatternRun) : ScanState :=
  p.found.foldl (processMatch text p) st

/-- The full scanning loop over a pattern list, from the empty state. -/
def scanCore (text : Str) (ps : List PatternRun) : ScanState :=
  ps.foldl (runPattern text) ⟨[], [], []⟩

/-- The registry applied to a text: each pattern with its exec matches. -/
def patternRuns (text : Str) : List PatternRun :=
  DETECTION_PATTERNS.map (fun p => ⟨p.ptype, p.label, p.pfx, execAll p.re text⟩)

/-- Result record of one detection pass (interface GuardrailResult). -/
structure GuardrailResult where
  hasSensitiveInfo : Bool
  items : List SensitiveItem
  anonymizedText : Str
deriving DecidableEq

/-- Source function detectSensitiveInfo: scan all patterns, sort the
accepted items ascending by startIndex (stable), report presence and the
anonymized text. -/
def detectSensitiveInfo (text : Str) : GuardrailResult :=
  let st := scanCore text (patternRuns text)
  let sorted := sortLe (fun a b => decide (a.startIndex ≤ b.startIndex)) st.items
  ⟨decide (0 < sorted.length), sorted, applyReplacements text sorted⟩

/-! ## Notions used to state the restoration and round-trip claims -/

/-- Bracket-free text: contains neither an opening nor a closing square
bracket. -/
def bracketFree (s : Str) : Bool := s.all (fun c => !(c == '[') && !(c == ']'))

/-- A bracket token: an opening bracket, a bracket-free body, a closing
bracket.  Every placeholder the scanner builds has this shape. -/
def bracketToken (k : Str) : Bool :=
  match k with
  | c :: rest => c == '[' && bracketFree rest.dropLast && (rest.getLast? == some ']')
  | [] => false

/-- Flattening of a decomposition into labelled pieces (true labels a
token). -/
def joinParts (parts : List (Bool × Str)) : Str := (parts.map Prod.snd).flatten

/-- Well-formed decomposition: token pieces are bracket tokens, the other
pieces are bracket-free. -/
def partsWF (parts : List (Bool × Str)) : Bool :=
  parts.all (fun p => if p.1 then bracketToken p.2 else bracketFree p.2)

/-- Replacement of one token piece by a value: the labelled-piece image of
one replaceAll pass for the key k. -/
def replaceTok (k v : Str) (p : Bool × Str) : Bool × Str :=
  if p.1 = true ∧ p.2 = k then (false, v) else p

/-- The spec's simultaneous reading of restoration on a decomposition: every
token that is a mapping key becomes its first-bound value, every other piece
is left untouched. -/
def revealTok (m : ReplacementMapping) (p : Bool × Str) : Bool × Str :=
  if p.1 = true then
    match getEntry m p.2 with
    | some v => (false, v)
    | none => p
  else p

/-- Faithful, in-bounds, strictly ordered, pairwise disjoint items: each
item's range is nonempty, lies inside the text at or after pos, its original
field is exactly the text at that range, and the following items start at or
after its end.  The scanner's accepted items always have this shape. -/
def wellPlaced (text : Str) : Nat → List SensitiveItem → Bool
  | _, [] => true
  | pos, it :: rest =>
    decide (pos ≤ it.startIndex) && decide (it.startIndex < it.endIndex) &&
      decide (it.endIndex ≤ text.length) &&
      (it.original == slice text it.startIndex it.endIndex) &&
      wellPlaced text it.endIndex rest

/-- The labelled-piece decomposition of the redacted text: alternating text
segments and item replacements. -/
def itemParts (text : Str) : Nat → List SensitiveItem → List (Bool × Str)
  | pos, [] => [(false, text.drop pos)]
  | pos, it :: rest =>
    (false, (text.drop pos).take (it.startIndex - pos)) ::
      (true, it.replacement) :: itemParts text it.endIndex rest

/-! ## Notions used to state the scanner claims -/

/-- Decimal value of a digit string (used to show the rendering natRepr is
injective). -/
def digitsVal (s : Str) : Nat := s.foldl (fun a c => a * 10 + (c.toNat - 48)) 0

/-- Splitting a string at its last underscore (nothing after it contains an
underscore). -/
def splitLastUS : Str → Option (Str × Str)
  | [] => none
  | c :: rest =>
    match splitLastUS rest with
    | some pr => some (c :: pr.1, pr.2)
    | none => if c = '_' then some ([], rest) else none

/-- Parsing a placeholder string: an opening bracket, a prefix part, the
last underscore, a counter part, a closing bracket.  Every string built by
mkPlaceholder parses to its prefix and rendered counter. -/
def phParse (r : Str) : Option (Str × Str) :=
  match r with
  | c :: body =>
    if c = '[' ∧ body.getLast? = some ']' then splitLastUS body.dropLast
    else none
  | [] => none

/-- The placeholder-prefix group an item's placeholder belongs to. -/
def phPrefixOf (r : Str) : Option Str := (phParse r).map Prod.fst

/-- The accepted items whose placeholder carries the given prefix (counting
across all rules that use that prefix). -/
def groupItems (P : Str) (items : List SensitiveItem) : List SensitiveItem :=
  items.filter (fun it => phPrefixOf it.replacement == some P)

/-- Splitting a string at its first dash. -/
def splitFirstDash : Str → Option (Str × Str)
  | [] => none
  | c :: rest =>
    if c = '-' then some ([], rest)
    else (splitFirstDash rest).map (fun pr => (c :: pr.1, pr.2))

/-- Parsing an item identifier type-start-end at its first two dashes. -/
def idParse (r : Str) : Option (Str × Str × Str) :=
  match splitFirstDash r with
  | some (t, rest) =>
    match splitFirstDash rest with
    | some (s, e) => some (t, s, e)
    | none => none
  | none => none

/-- The internal invariant of one scan: used ranges mirror the accepted
items; accepted ranges are pairwise disjoint; each prefix group's
placeholders are exactly the numbered placeholders up to that prefix's
counter; placeholders are pairwise distinct; and each item is faithful to
the text, carries the derived identifier, is not ignored, and passed its
category validator. -/
def ItemsInv (text : Str) (st : ScanState) : Prop :=
  st.usedRanges = st.items.map (fun it => (it.startIndex, it.endIndex)) ∧
  st.items.Pairwise (fun a b =>
    rangesOverlap (a.startIndex, a.endIndex) (b.startIndex, b.endIndex) = false) ∧
  (∀ P : Str, (groupItems P st.items).map (fun it => it.replacement) =
    (List.range (counterGet st.counters P)).map (fun i => mkPlaceholder P (i + 1))) ∧
  (st.items.map (fun it => it.replacement)).Nodup ∧
  (∀ it ∈ st.items,
    (∃ P n, 1 ≤ n ∧ it.replacement = mkPlaceholder P n) ∧
    it.original = slice text it.startIndex it.endIndex ∧
    it.id = mkId it.type it.startIndex it.endIndex ∧
    it.ignored = false ∧
    (it.type = .ssn → countDigits it.original = 9) ∧
    (it.type = .phone →
      10 ≤ countDigits it.original ∧ countDigits it.original ≤ 15))

/-- Every match a pattern run offers lies strictly inside the text: regexes
that must consume at least one character yield nonempty in-bounds spans. -/
def BoundedRuns (text : Str) (ps : List PatternRun) : Prop :=
  ∀ p ∈ ps, ∀ se ∈ p.found, se.1 < se.2 ∧ se.2 ≤ text.length

/-! ## Lemmas about the string scan of strIncludes -/

theorem strIncludes_iff (s pat : Str) : strIncludes s pat = true ↔ pat <:+: s := by
  induction s with
  | nil =>
    simp only [strIncludes, List.isEmpty_iff, List.infix_nil]
  | cons c rest ih =>
    simp only [strIncludes, Bool.or_eq_true, List.isPrefixOf_iff_prefix, ih,
      List.infix_cons_iff]

/-! ## Lemmas about association-list reads and writes -/

theorem getEntry_eq_none_of_not_contains {m : List (Str × α)} {k : Str}
    (h : containsEntry m k = false) : getEntry m k = none := by
  unfold containsEntry at h
  unfold getEntry
  rw [List.find?_eq_none.mpr]
  · rfl
  · intro kv hkv hb
    have : m.any (fun kv => kv.1 == k) = true := List.any_eq_true.mpr ⟨kv, hkv, hb⟩
    rw [h] at this
    exact Bool.false_ne_true this

theorem containsEntry_cons {kv : Str × α} {m : List (Str × α)} {k : Str} :
    containsEntry (kv :: m) k = ((kv.1 == k) || containsEntry m k) := by
  simp [containsEntry, List.any_cons]

theorem find?_overwrite_self (m : List (Str × α)) (k : Str) (v : α)
    (h : containsEntry m k = true) :
    List.find? (fun kv => kv.1 == k)
      (m.map (fun kv => if (kv.1 == k) = true then (k, v) else kv)) =
      some (k, v) := by
  induction m with
  | nil => simp [containsEntry] at h
  | cons kv rest ih =>
    cases hk : (kv.1 == k) with
    | true =>
      rw [List.map_cons, if_pos hk]
      exact List.find?_cons_of_pos _ (by simp)
    | false =>
      have hrest : containsEntry rest k = true := by
        rw [containsEntry_cons, hk, Bool.false_or] at h
        exact h
      rw [List.map_cons, if_neg (by simp [hk]), List.find?_cons_of_neg _ (by simp [hk])]
      exact ih hrest

theorem find?_overwrite_ne (m : List (Str × α)) (k k2 : Str) (v : α)
    (h : k2 ≠ k) :
    List.find? (fun kv => kv.1 == k2)
      (m.map (fun kv => if (kv.1 == k) = true then (k, v) else kv)) =
      List.find? (fun kv => kv.1 == k2) m := by
  induction m with
  | nil => rfl
  | cons kv rest ih =>
    cases hk : (kv.1 == k) with
    | true =>
      have hne2 : (kv.1 == k2) = false := by
        simp only [beq_eq_false_iff_ne]
        rw [eq_of_beq hk]
        exact fun hh => h hh.symm
      have hne : ((k : Str) == k2) = false := by
        simp only [beq_eq_false_iff_ne]
        exact fun hh => h hh.symm
      rw [List.map_cons, if_pos hk, List.find?_cons_of_neg _ (by simp [hne]),
        List.find?_cons_of_neg _ (by simp [hne2])]
      exact ih
    | false =>
      rw [List.map_cons, if_neg (by simp [hk])]
      cases hk2 : (kv.1 == k2) with
      | true =>
        rw [List.find?_cons_of_pos _ (by simp [hk2]), List.find?_cons_of_pos _ (by simp [hk2])]
      | false =>
        rw [List.find?_cons_of_neg _ (by simp [hk2]), List.find?_cons_of_neg _ (by simp [hk2])]
        exact ih

theorem getEntry_setEntry_self (m : List (Str × α)) (k : Str) (v : α) :
    getEntry (setEntry m k v) k = some v := by
  unfold setEntry
  by_cases h : containsEntry m k = true
  · rw [if_pos h]
    unfold getEntry
    rw [find?_overwrite_self m k v h]
    rfl
  · rw [if_neg h]
    have hnone := getEntry_eq_none_of_not_contains (Bool.eq_false_iff.mpr h)
    unfold getEntry at hnone ⊢
    rw [List.find?_append, Option.map_eq_none'.mp hnone]
    simp [List.find?_cons_of_pos]

theorem getEntry_setEntry_ne (m : List (Str × α)) (k k2 : Str) (v : α)
    (h : k2 ≠ k) : getEntry (setEntry m k v) k2 = getEntry m k2 := by
  unfold setEntry
  by_cases hc : containsEntry m k = true
  · rw [if_pos hc]
    unfold getEntry
    rw [find?_overwrite_ne m k k2 v h]
  · rw [if_neg hc]
    unfold getEntry
    rw [List.find?_append]
    have hlast : List.find? (fun kv => kv.1 == k2) [(k, v)] = none := by
      apply List.find?_eq_none.mpr
      intro kv hkv
      simp only [List.mem_singleton] at hkv
      subst hkv
      intro hh
      exact h (eq_of_beq hh).symm
    rw [hlast, Option.or_none]

/-! ## Lemmas about the spread merge -/

theorem mergeMappings_getEntry_not_in (old added : ReplacementMapping) (k : Str)
    (h : containsEntry added k = false) :
    getEntry (mergeMappings old added) k = getEntry old k := by
  induction added generalizing old with
  | nil => rfl
  | cons kv rest ih =>
    rw [containsEntry_cons] at h
    have h1 : (kv.1 == k) = false := by
      cases hb : (kv.1 == k) <;> simp [hb] at h ⊢
    have h2 : containsEntry rest k = false := by
      cases hb : containsEntry rest k <;> simp [hb, h1] at h ⊢
    show getEntry (mergeMappings (setEntry old kv.1 kv.2) rest) k = getEntry old k
    rw [ih _ h2]
    exact getEntry_setEntry_ne old kv.1 k kv.2 (fun hh => by
      rw [hh] at h1
      simp at h1)

theorem mergeMappings_getEntry_in (old added : ReplacementMapping) (k : Str)
    (hnd : (added.map Prod.fst).Nodup) (h : containsEntry added k = true) :
    getEntry (mergeMappings old added) k = getEntry added k := by
  induction added generalizing old with
  | nil => simp [containsEntry] at h
  | cons kv rest ih =>
    rw [List.map_cons, List.nodup_cons] at hnd
    cases hk : (kv.1 == k) with
    | true =>
      have hkeq : kv.1 = k := eq_of_beq hk
      have hrest : containsEntry rest k = false := by
        cases hb : containsEntry rest k with
        | false => rfl
        | true =>
          exfalso
          apply hnd.1
          unfold containsEntry at hb
          obtain ⟨kv2, hmem, hbeq⟩ := List.any_eq_true.mp hb
          have : kv2.1 = k := eq_of_beq hbeq
          rw [hkeq, ← this]
          exact List.mem_map_of_mem Prod.fst hmem
      show getEntry (mergeMappings (setEntry old kv.1 kv.2) rest) k = _
      rw [mergeMappings_getEntry_not_in _ _ _ hrest, hkeq,
        getEntry_setEntry_self]
      rw [getEntry, List.find?_cons_of_pos _ (by simp [hk])]
      rfl
    | false =>
      have hrest : containsEntry rest k = true := by
        rw [containsEntry_cons, hk, Bool.false_or] at h
        exact h
      show getEntry (mergeMappings (setEntry old kv.1 kv.2) rest) k = _
      rw [ih _ hnd.2 hrest]
      rw [getEntry, getEntry, List.find?_cons_of_neg _ (by simp [hk])]

/-- C8: saveReplacementMapping stores, under the conversation's key, the
spread merge of the previously stored mapping with the new one; the merge
maps every key of the new mapping to its new value and every other key to
its old value, so existing entries are retained and the stored mapping is
never wholesale replaced.  The new mapping has distinct keys (it comes from
a JS object, which cannot carry duplicate keys). -/
theorem C8_saveReplacementMapping_merges (all : MappingStore) (cid : Str)
    (mapping : ReplacementMapping) (hnd : (mapping.map Prod.fst).Nodup) :
    getEntry (saveReplacementMapping all cid mapping) cid =
      some (mergeMappings ((getEntry all cid).getD []) mapping) ∧
    (∀ k, containsEntry mapping k = true →
      getEntry (mergeMappings ((getEntry all cid).getD []) mapping) k =
        getEntry mapping k) ∧
    (∀ k, containsEntry mapping k = false →
      getEntry (mergeMappings ((getEntry all cid).getD []) mapping) k =
        getEntry ((getEntry all cid).getD []) k) := by
  refine ⟨getEntry_setEntry_self _ _ _, fun k hk => ?_, fun k hk => ?_⟩
  · exact mergeMappings_getEntry_in _ _ _ hnd hk
  · exact mergeMappings_getEntry_not_in _ _ _ hk

/-- C8 witness: a concrete store and merge exercising override and
retention. -/
theorem C8_saveReplacementMapping_merges_witness :
    getEntry
      (saveReplacementMapping
        [(str "c", [(str "[A_1]", str "a"), (str "[B_1]", str "b")])]
        (str "c") [(str "[B_1]", str "b2"), (str "[C_1]", str "c3")])
      (str "c") =
      some (mergeMappings [(str "[A_1]", str "a"), (str "[B_1]", str "b")]
        [(str "[B_1]", str "b2"), (str "[C_1]", str "c3")]) := by
  have h := C8_saveReplacementMapping_merges
    [(str "c", [(str "[A_1]", str "a"), (str "[B_1]", str "b")])]
    (str "c") [(str "[B_1]", str "b2"), (str "[C_1]", str "c3")]
    (by decide)
  exact h.1

/-- C7 counterexample: with empty text and a mapping whose sole key is the
empty string, the key literally occurs in the text (every string occurs in
itself), yet hasMappablePlaceholders returns false, refuting the claimed
equivalence for every text and every mapping. -/
theorem C7_counterexample :
    hasMappablePlaceholders [] [([], str "x")] = false ∧
      ([] : Str) <:+: ([] : Str) := by
  exact ⟨rfl, List.infix_rfl⟩

/-! ## Lemmas about replaceAll on decomposed texts -/

theorem bracketFree_mem {s : Str} (h : bracketFree s = true) :
    ∀ c ∈ s, c ≠ '[' ∧ c ≠ ']' := by
  intro c hc
  have := List.all_eq_true.mp h c hc
  simp only [Bool.and_eq_true, Bool.not_eq_true', beq_eq_false_iff_ne, ne_eq] at this
  exact this

theorem bracketFree_sublist {s t : Str} (hs : s.Sublist t)
    (h : bracketFree t = true) : bracketFree s = true := by
  apply List.all_eq_true.mpr
  intro c hc
  exact List.all_eq_true.mp h c (hs.subset hc)

theorem bracketToken_shape {k : Str} (h : bracketToken k = true) :
    ∃ b, k = '[' :: (b ++ [']']) ∧ bracketFree b = true := by
  cases k with
  | nil => simp [bracketToken] at h
  | cons c rest =>
    simp only [bracketToken, Bool.and_eq_true, beq_iff_eq] at h
    obtain ⟨⟨hc, hfree⟩, hlast⟩ := h
    subst hc
    refine ⟨rest.dropLast, ?_, hfree⟩
    have := List.dropLast_append_getLast? ']' hlast
    rw [this]

theorem replaceAllGo_skip (pat rep : Str) (x : Str) :
    ∀ t : Str, replaceAllGo pat rep x.length (x ++ t) = replaceAllGo pat rep 0 t := by
  induction x with
  | nil => intro t; rfl
  | cons c x' ih =>
    intro t
    show replaceAllGo pat rep (x'.length + 1) (c :: (x' ++ t)) = _
    rw [replaceAllGo]
    exact ih t

theorem replaceAllGo_pass (hd : Char) (tl rep : Str) (s : Str) (hs : hd ∉ s) :
    ∀ t : Str, replaceAllGo (hd :: tl) rep 0 (s ++ t) =
      s ++ replaceAllGo (hd :: tl) rep 0 t := by
  induction s with
  | nil => intro t; rfl
  | cons c s' ih =>
    intro t
    have hcne : hd ≠ c := fun hh => hs (hh ▸ List.mem_cons_self c s')
    have hs' : hd ∉ s' := fun hh => hs (List.mem_cons_of_mem c hh)
    show replaceAllGo (hd :: tl) rep 0 (c :: (s' ++ t)) = _
    rw [replaceAllGo]
    have hpre : (hd :: tl).isPrefixOf (c :: (s' ++ t)) = false := by
      show (hd == c && tl.isPrefixOf (s' ++ t)) = false
      have : (hd == c) = false := beq_eq_false_iff_ne.mpr hcne
      rw [this, Bool.false_and]
    rw [if_neg (by rw [hpre]; rintro ⟨h1, -⟩; exact Bool.false_ne_true h1)]
    rw [ih hs' t]
    rfl

theorem replaceAllGo_consume (pat rep : Str) (h : pat ≠ []) (t : Str) :
    replaceAllGo pat rep 0 (pat ++ t) = rep ++ replaceAllGo pat rep 0 t := by
  cases pat with
  | nil => exact absurd rfl h
  | cons c p' =>
    show replaceAllGo (c :: p') rep 0 (c :: (p' ++ t)) = _
    rw [replaceAllGo]
    rw [if_pos ?cond]
    case cond =>
      constructor
      · exact List.isPrefixOf_iff_prefix.mpr ⟨t, by simp⟩
      · simp
    have : (c :: p').length - 1 = p'.length := by simp
    rw [this, replaceAllGo_skip]

theorem token_not_prefix {pat t : Str} (hp : bracketToken pat = true)
    (ht : bracketToken t = true) (hne : pat ≠ t) (X : Str) :
    pat.isPrefixOf (t ++ X) = false := by
  obtain ⟨bp, hpeq, hbp⟩ := bracketToken_shape hp
  obtain ⟨bt, hteq, hbt⟩ := bracketToken_shape ht
  cases hpre : pat.isPrefixOf (t ++ X) with
  | false => rfl
  | true =>
    exfalso
    have hpre2 : pat <+: t ++ X := List.isPrefixOf_iff_prefix.mp hpre
    rw [hpeq, hteq, List.cons_append] at hpre2
    have hbody : bp ++ [']'] <+: (bt ++ [']']) ++ X :=
      (List.cons_prefix_cons.mp hpre2).2
    rw [List.append_assoc] at hbody
    obtain ⟨s, hs⟩ := hbody
    rcases Nat.lt_trichotomy bp.length bt.length with hlt | heq | hgt
    · have h1 : ((bp ++ [']']) ++ s).take (bp.length + 1) =
          (bt ++ ([']'] ++ X)).take (bp.length + 1) := by rw [hs]
      have hlen1 : (bp ++ [']']).length = bp.length + 1 := by simp
      have hL : ((bp ++ [']']) ++ s).take (bp.length + 1) = bp ++ [']'] := by
        rw [← hlen1, List.take_left]
      have hR : (bt ++ ([']'] ++ X)).take (bp.length + 1) =
          bt.take (bp.length + 1) :=
        List.take_append_of_le_length (by omega)
      rw [hL, hR] at h1
      have hmem : ']' ∈ bt.take (bp.length + 1) := by
        rw [← h1]
        exact List.mem_append_right _ (List.mem_singleton.mpr rfl)
      exact ((bracketFree_mem hbt) _ (List.mem_of_mem_take hmem)).2 rfl
    · rw [← List.append_assoc, List.append_assoc bp, List.append_assoc bt] at hs
      obtain ⟨h1, -⟩ := List.append_inj hs heq
      exact hne (by rw [hpeq, hteq, h1])
    · have h1 : ((bp ++ [']']) ++ s).take (bt.length + 1) =
          (bt ++ ([']'] ++ X)).take (bt.length + 1) := by rw [hs]
      have hL : ((bp ++ [']']) ++ s).take (bt.length + 1) =
          bp.take (bt.length + 1) := by
        rw [List.take_append_of_le_length (by simp; omega),
          List.take_append_of_le_length (by omega)]
      have hlen2 : (bt ++ ([']'] ++ X)).take (bt.length + 1) = bt ++ [']'] := by
        rw [show bt.length + 1 = bt.length + 1 by rfl, List.take_append,
          List.take_append_of_le_length (by simp)]
        simp
      rw [hL, hlen2] at h1
      have hmem : ']' ∈ bp.take (bt.length + 1) := by
        rw [h1]
        exact List.mem_append_right _ (List.mem_singleton.mpr rfl)
      exact ((bracketFree_mem hbp) _ (List.mem_of_mem_take hmem)).2 rfl

theorem replaceAll_joinParts (k v : Str) (hk : bracketToken k = true)
    (hv : bracketFree v = true) :
    ∀ parts : List (Bool × Str), partsWF parts = true →
    replaceAll (joinParts parts) k v = joinParts (parts.map (replaceTok k v)) := by
  have hkne : k ≠ [] := by
    obtain ⟨b, hb, -⟩ := bracketToken_shape hk
    rw [hb]
    exact List.cons_ne_nil _ _
  intro parts
  induction parts with
  | nil =>
    intro
    show replaceAll [] k v = []
    unfold replaceAll
    rw [if_neg hkne]
    cases k with
    | nil => exact absurd rfl hkne
    | cons c p' => rfl
  | cons p rest ih =>
    intro hwf
    have hwf1 := List.all_eq_true.mp hwf p (List.mem_cons_self p rest)
    have hwfr : partsWF rest = true := by
      apply List.all_eq_true.mpr
      intro q hq
      exact List.all_eq_true.mp hwf q (List.mem_cons_of_mem p hq)
    obtain ⟨bflag, s⟩ := p
    have hjoin : joinParts ((bflag, s) :: rest) = s ++ joinParts rest := by
      simp [joinParts]
    have ihr := ih hwfr
    unfold replaceAll at ihr ⊢
    rw [if_neg hkne] at ihr ⊢
    obtain ⟨hd, tl, hkshape⟩ : ∃ hd tl, k = hd :: tl := by
      obtain ⟨b, hb, -⟩ := bracketToken_shape hk
      exact ⟨'[', b ++ [']'], hb⟩
    have hdbr : hd = '[' := by
      obtain ⟨b, hb, -⟩ := bracketToken_shape hk
      rw [hkshape] at hb
      exact (List.cons.injEq _ _ _ _ ▸ hb).1
    cases bflag with
    | false =>
      have hsfree : bracketFree s = true := by simpa using hwf1
      have hnomem : hd ∉ s := by
        intro hmem
        exact (bracketFree_mem hsfree hd hmem).1 hdbr
      rw [hjoin, hkshape, replaceAllGo_pass hd tl v s hnomem, ← hkshape, ihr]
      have : replaceTok k v (false, s) = (false, s) := by
        unfold replaceTok
        rw [if_neg]
        rintro ⟨h1, -⟩
        exact Bool.false_ne_true h1
      rw [List.map_cons, this]
      simp [joinParts]
    | true =>
      have hstok : bracketToken s = true := by simpa using hwf1
      by_cases hsk : s = k
      · subst hsk
        rw [hjoin, replaceAllGo_consume s v hkne (joinParts rest), ihr]
        have : replaceTok s v (true, s) = (false, v) := by
          unfold replaceTok
          rw [if_pos ⟨rfl, rfl⟩]
        rw [List.map_cons, this]
        simp [joinParts]
      · obtain ⟨bs, hseq, hbs⟩ := bracketToken_shape hstok
        have hnp : k.isPrefixOf (s ++ joinParts rest) = false :=
          token_not_prefix hk hstok (fun hh => hsk hh.symm) _
        rw [hjoin, hseq, List.cons_append]
        rw [hkshape]
        rw [replaceAllGo]
        rw [if_neg ?notpre]
        case notpre =>
          rw [← hkshape, ← List.cons_append, ← hseq]
          rw [hnp]
          rintro ⟨h1, -⟩
          exact Bool.false_ne_true h1
        have hnomem : hd ∉ bs ++ [']'] := by
          intro hmem
          rcases List.mem_append.mp hmem with hm | hm
          · exact (bracketFree_mem hbs hd hm).1 hdbr
          · rw [List.mem_singleton] at hm
            rw [hdbr] at hm
            exact absurd hm (by decide)
        rw [replaceAllGo_pass hd tl v (bs ++ [']']) hnomem]
        rw [← hkshape, ihr]
        have hrt : replaceTok k v (true, s) = (true, s) := by
          unfold replaceTok
          rw [if_neg]
          rintro ⟨-, h2⟩
          exact hsk h2
        rw [hseq] at hrt
        rw [List.map_cons, hrt]
        simp [joinParts]

theorem partsWF_map_replaceTok (k v : Str) (hv : bracketFree v = true)
    (parts : List (Bool × Str)) (hw : partsWF parts = true) :
    partsWF (parts.map (replaceTok k v)) = true := by
  apply List.all_eq_true.mpr
  intro q hq
  obtain ⟨p, hp, hpq⟩ := List.mem_map.mp hq
  have hwp := List.all_eq_true.mp hw p hp
  unfold replaceTok at hpq
  by_cases hcond : p.1 = true ∧ p.2 = k
  · rw [if_pos hcond] at hpq
    rw [← hpq]
    simpa using hv
  · rw [if_neg hcond] at hpq
    rw [← hpq]
    exact hwp

theorem restoreOriginals_joinParts (m : ReplacementMapping)
    (hm : ∀ kv ∈ m, bracketToken kv.1 = true ∧ bracketFree kv.2 = true) :
    ∀ parts : List (Bool × Str), partsWF parts = true →
    restoreOriginals (joinParts parts) m =
      joinParts (parts.map
        (fun p => m.foldl (fun q kv => replaceTok kv.1 kv.2 q) p)) := by
  induction m with
  | nil =>
    intro parts _
    simp [restoreOriginals]
  | cons kv rest ih =>
    intro parts hw
    have hkv := hm kv (List.mem_cons_self kv rest)
    have hrest : ∀ kv2 ∈ rest,
        bracketToken kv2.1 = true ∧ bracketFree kv2.2 = true :=
      fun kv2 h2 => hm kv2 (List.mem_cons_of_mem kv h2)
    show restoreOriginals (replaceAll (joinParts parts) kv.1 kv.2) rest = _
    rw [replaceAll_joinParts kv.1 kv.2 hkv.1 hkv.2 parts hw]
    rw [ih hrest (parts.map (replaceTok kv.1 kv.2))
      (partsWF_map_replaceTok _ _ hkv.2 parts hw)]
    rw [List.map_map]
    rfl

theorem foldl_replaceTok_false (m : ReplacementMapping) (s : Str) :
    m.foldl (fun q kv => replaceTok kv.1 kv.2 q) (false, s) = (false, s) := by
  induction m with
  | nil => rfl
  | cons kv rest ih =>
    show List.foldl _ (replaceTok kv.1 kv.2 (false, s)) rest = _
    have h1 : replaceTok kv.1 kv.2 (false, s) = (false, s) := by
      unfold replaceTok
      rw [if_neg]
      rintro ⟨h1, -⟩
      exact Bool.false_ne_true h1
    rw [h1]
    exact ih

theorem foldl_replaceTok_true (m : ReplacementMapping) (t : Str) :
    m.foldl (fun q kv => replaceTok kv.1 kv.2 q) (true, t) =
      revealTok m (true, t) := by
  induction m with
  | nil => simp [revealTok, getEntry]
  | cons kv rest ih =>
    by_cases hkt : t = kv.1
    · show List.foldl _ (replaceTok kv.1 kv.2 (true, t)) rest = _
      have h1 : replaceTok kv.1 kv.2 (true, t) = (false, kv.2) := by
        unfold replaceTok
        rw [if_pos ⟨rfl, hkt⟩]
      rw [h1, foldl_replaceTok_false]
      unfold revealTok
      rw [if_pos rfl]
      have h2 : getEntry (kv :: rest) t = some kv.2 := by
        unfold getEntry
        rw [List.find?_cons_of_pos _ (by simp [hkt])]
        rfl
      rw [h2]
    · show List.foldl _ (replaceTok kv.1 kv.2 (true, t)) rest = _
      have h1 : replaceTok kv.1 kv.2 (true, t) = (true, t) := by
        unfold replaceTok
        rw [if_neg]
        rintro ⟨-, h2⟩
        exact hkt h2
      rw [h1, ih]
      unfold revealTok
      rw [if_pos rfl, if_pos rfl]
      have h2 : getEntry (kv :: rest) t = getEntry rest t := by
        unfold getEntry
        rw [List.find?_cons_of_neg _
          (by intro hh; exact hkt (eq_of_beq hh).symm)]
      rw [h2]

/-! ## Lemmas about the stable sort and the splice fold -/

theorem insertLe_append_of_all_false (le : α → α → Bool) (x : α)
    (l : List α) (h : ∀ y ∈ l, le x y = false) : insertLe le x l = l ++ [x] := by
  induction l with
  | nil => rfl
  | cons y ys ih =>
    unfold insertLe
    rw [if_neg (by rw [h y (List.mem_cons_self y ys)]; exact Bool.false_ne_true)]
    rw [ih (fun z hz => h z (List.mem_cons_of_mem y hz))]
    rfl

theorem sortLe_desc_of_ascending (f : α → Nat) (l : List α)
    (h : l.Pairwise (fun a b => f a < f b)) :
    sortLe (fun a b => decide (f b ≤ f a)) l = l.reverse := by
  induction l with
  | nil => rfl
  | cons x xs ih =>
    have hp := List.pairwise_cons.mp h
    unfold sortLe
    rw [ih hp.2]
    rw [insertLe_append_of_all_false _ _ _ ?hall, List.reverse_cons]
    case hall =>
      intro y hy
      have hxy : f x < f y := hp.1 y (List.mem_reverse.mp hy)
      simpa using Nat.not_le.mpr hxy

theorem wellPlaced_cons {text : Str} {pos : Nat} {x : SensitiveItem}
    {rest : List SensitiveItem} (h : wellPlaced text pos (x :: rest) = true) :
    pos ≤ x.startIndex ∧ x.startIndex < x.endIndex ∧ x.endIndex ≤ text.length ∧
      x.original = slice text x.startIndex x.endIndex ∧
      wellPlaced text x.endIndex rest = true := by
  unfold wellPlaced at h
  simp only [Bool.and_eq_true, decide_eq_true_eq, beq_iff_eq] at h
  tauto

theorem wellPlaced_le_start (text : Str) :
    ∀ (items : List SensitiveItem) (pos : Nat),
      wellPlaced text pos items = true → ∀ it ∈ items, pos ≤ it.startIndex := by
  intro items
  induction items with
  | nil =>
    intro pos _ it hit
    exact absurd hit (List.not_mem_nil it)
  | cons x rest ih =>
    intro pos hw it hit
    obtain ⟨h1, h2, h3, h4, h5⟩ := wellPlaced_cons hw
    rcases List.mem_cons.mp hit with rfl | hmem
    · exact h1
    · have := ih x.endIndex h5 it hmem
      omega

theorem wellPlaced_pairwise (text : Str) :
    ∀ (items : List SensitiveItem) (pos : Nat),
      wellPlaced text pos items = true →
      items.Pairwise (fun a b => a.startIndex < b.startIndex) := by
  intro items
  induction items with
  | nil => intro pos _; exact List.Pairwise.nil
  | cons x rest ih =>
    intro pos hw
    obtain ⟨h1, h2, h3, h4, h5⟩ := wellPlaced_cons hw
    refine List.pairwise_cons.mpr ⟨?_, ih x.endIndex h5⟩
    intro y hy
    have := wellPlaced_le_start text rest x.endIndex h5 y hy
    omega

theorem foldl_splice_wellPlaced (text : Str) :
    ∀ (items : List SensitiveItem) (pos : Nat),
      wellPlaced text pos items = true →
      items.reverse.foldl splice text =
        text.take pos ++ joinParts (itemParts text pos items) := by
  intro items
  induction items with
  | nil =>
    intro pos _
    show text = text.take pos ++ joinParts [(false, text.drop pos)]
    simp [joinParts]
  | cons it rest ih =>
    intro pos hw
    obtain ⟨h1, h2, h3, h4, h5⟩ := wellPlaced_cons hw
    rw [List.reverse_cons, List.foldl_append]
    rw [ih it.endIndex h5]
    show splice (text.take it.endIndex ++ joinParts (itemParts text it.endIndex rest)) it = _
    unfold splice
    have hlen : (text.take it.endIndex).length = it.endIndex := by
      rw [List.length_take]
      omega
    have htake : (text.take it.endIndex ++ joinParts (itemParts text it.endIndex rest)).take it.startIndex = text.take it.startIndex := by
      rw [List.take_append_of_le_length (by omega)]
      rw [List.take_take]
      congr 1
      omega
    have hdrop : (text.take it.endIndex ++ joinParts (itemParts text it.endIndex rest)).drop it.endIndex = joinParts (itemParts text it.endIndex rest) := by
      have := List.drop_left (text.take it.endIndex) (joinParts (itemParts text it.endIndex rest))
      rw [hlen] at this
      exact this
    rw [htake, hdrop]
    show _ = text.take pos ++ joinParts ((false, (text.drop pos).take (it.startIndex - pos)) :: (true, it.replacement) :: itemParts text it.endIndex rest)
    have hjoin : joinParts ((false, (text.drop pos).take (it.startIndex - pos)) :: (true, it.replacement) :: itemParts text it.endIndex rest) =
        (text.drop pos).take (it.startIndex - pos) ++ (it.replacement ++ joinParts (itemParts text it.endIndex rest)) := by
      simp [joinParts]
    rw [hjoin]
    have hsplit := List.take_add text pos (it.startIndex - pos)
    rw [show pos + (it.startIndex - pos) = it.startIndex by omega] at hsplit
    rw [hsplit]
    simp [List.append_assoc]

/-- C6 counterexample: for the text consisting of the single token [A_1] and
the mapping sending [A_1] to x[B_1]y and [B_1] to z, the key [B_1] has no
occurrence in the text, so under the claimed contract the occurrence of
[A_1] is replaced by its mapped value and the output is x[B_1]y; the code's
sequential replaceAll instead rewrites the substring introduced by the first
replacement and produces xzy. -/
theorem C6_counterexample :
    restoreOriginals (joinParts [(true, str "[A_1]")])
        [(str "[A_1]", str "x[B_1]y"), (str "[B_1]", str "z")] = str "xzy" ∧
    joinParts ([(true, str "[A_1]")].map (revealTok
        [(str "[A_1]", str "x[B_1]y"), (str "[B_1]", str "z")])) =
      str "x[B_1]y" ∧
    str "xzy" ≠ str "x[B_1]y" := by
  refine ⟨by decide, by decide, by decide⟩

/-- Restoration on a well-formed decomposition equals the simultaneous
one-pass replacement of tokens by their first-bound mapped values. -/
theorem restoreOriginals_reveal (parts : List (Bool × Str))
    (m : ReplacementMapping) (hw : partsWF parts = true)
    (hm : ∀ kv ∈ m, bracketToken kv.1 = true ∧ bracketFree kv.2 = true) :
    restoreOriginals (joinParts parts) m =
      joinParts (parts.map (revealTok m)) := by
  rw [restoreOriginals_joinParts m hm parts hw]
  congr 1
  apply List.map_congr_left
  intro p hp
  obtain ⟨b, s⟩ := p
  cases b with
  | false =>
    rw [foldl_replaceTok_false]
    unfold revealTok
    rw [if_neg (by exact Bool.false_ne_true)]
  | true =>
    rw [foldl_replaceTok_true]

/-- C6 (amended): restoreOriginals is total over all inputs and is the
identity on the empty mapping; and provided every mapping key is a bracket
token, every mapped value is bracket-free text, and the input decomposes
into bracket-free segments and bracket tokens, restoreOriginals replaces
every token equal to a mapping key by that key's (first-bound) value and
leaves every other piece — in particular every placeholder-shaped token that
is not a mapping key — untouched. -/
theorem C6_restoreOriginals_replaces_keys :
    (∀ text : Str, restoreOriginals text [] = text) ∧
    ∀ (parts : List (Bool × Str)) (m : ReplacementMapping),
      partsWF parts = true →
      (∀ kv ∈ m, bracketToken kv.1 = true ∧ bracketFree kv.2 = true) →
      restoreOriginals (joinParts parts) m =
        joinParts (parts.map (revealTok m)) := by
  exact ⟨fun _ => rfl, fun parts m hw hm => restoreOriginals_reveal parts m hw hm⟩

/-- C6 witness: the amended contract applied to the spec's Scenario D
instance (one token, one matching key). -/
theorem C6_restoreOriginals_replaces_keys_witness :
    restoreOriginals
        (joinParts [(false, str "Reach "), (true, str "[EMAIL_1]"),
          (false, str " for info")])
        [(str "[EMAIL_1]", str "jane.doe@example.com")] =
      joinParts ([(false, str "Reach "), (true, str "[EMAIL_1]"),
          (false, str " for info")].map
        (revealTok [(str "[EMAIL_1]", str "jane.doe@example.com")])) ∧
    joinParts ([(false, str "Reach "), (true, str "[EMAIL_1]"),
          (false, str " for info")].map
        (revealTok [(str "[EMAIL_1]", str "jane.doe@example.com")])) =
      str "Reach jane.doe@example.com for info" := by
  refine ⟨C6_restoreOriginals_replaces_keys.2 _ _ (by decide) ?_, by decide⟩
  intro kv hkv
  simp only [List.mem_singleton] at hkv
  subst hkv
  exact ⟨by decide, by decide⟩

/-! ## Lemmas about buildReplacementMapping and the round trip -/

theorem containsEntry_append (m1 m2 : List (Str × α)) (k : Str) :
    containsEntry (m1 ++ m2) k = (containsEntry m1 k || containsEntry m2 k) := by
  simp [containsEntry, List.any_append]

theorem setEntry_append_of_not_contains (m : List (Str × α)) (k : Str) (v : α)
    (h : containsEntry m k = false) : setEntry m k v = m ++ [(k, v)] := by
  unfold setEntry
  rw [if_neg (by rw [h]; exact Bool.false_ne_true)]

theorem buildRM_go (items : List SensitiveItem) :
    ∀ m0 : ReplacementMapping,
      (∀ it ∈ items, it.ignored = false) →
      (items.map (fun it => it.replacement)).Nodup →
      (∀ it ∈ items, containsEntry m0 it.replacement = false) →
      items.foldl
          (fun m it =>
            if !it.ignored then setEntry m it.replacement it.original else m) m0 =
        m0 ++ items.map (fun it => (it.replacement, it.original)) := by
  induction items with
  | nil =>
    intro m0 _ _ _
    simp
  | cons it rest ih =>
    intro m0 hig hnd hdisj
    have hig1 : it.ignored = false := hig it (List.mem_cons_self _ _)
    rw [List.foldl_cons]
    rw [show (if !it.ignored then setEntry m0 it.replacement it.original else m0) =
      setEntry m0 it.replacement it.original by rw [hig1]; rfl]
    rw [setEntry_append_of_not_contains _ _ _ (hdisj it (List.mem_cons_self _ _))]
    rw [List.map_cons, List.nodup_cons] at hnd
    rw [ih (m0 ++ [(it.replacement, it.original)])
      (fun y hy => hig y (List.mem_cons_of_mem _ hy)) hnd.2 ?disj]
    · simp [List.append_assoc]
    case disj =>
      intro y hy
      rw [containsEntry_append]
      rw [hdisj y (List.mem_cons_of_mem _ hy)]
      have hne : (it.replacement == y.replacement) = false := by
        apply beq_eq_false_iff_ne.mpr
        intro hh
        exact hnd.1 (hh ▸ List.mem_map_of_mem (fun z => z.replacement) hy)
      simp [containsEntry, hne]

theorem buildReplacementMapping_eq (items : List SensitiveItem)
    (hig : ∀ it ∈ items, it.ignored = false)
    (hnd : (items.map (fun it => it.replacement)).Nodup) :
    buildReplacementMapping items =
      items.map (fun it => (it.replacement, it.original)) := by
  unfold buildReplacementMapping
  have h := buildRM_go items [] hig hnd (fun it _ => rfl)
  simpa using h

theorem getEntry_items_map (items : List SensitiveItem)
    (hnd : (items.map (fun it => it.replacement)).Nodup) :
    ∀ it ∈ items,
      getEntry (items.map (fun it => (it.replacement, it.original)))
        it.replacement = some it.original := by
  induction items with
  | nil =>
    intro it hit
    exact absurd hit (List.not_mem_nil it)
  | cons x rest ih =>
    intro it hit
    rw [List.map_cons, List.nodup_cons] at hnd
    rcases List.mem_cons.mp hit with rfl | hmem
    · unfold getEntry
      rw [List.map_cons, List.find?_cons_of_pos _ (by simp)]
      rfl
    · have hne : (x.replacement == it.replacement) = false := by
        apply beq_eq_false_iff_ne.mpr
        intro hh
        exact hnd.1 (hh ▸ List.mem_map_of_mem (fun z => z.replacement) hmem)
      unfold getEntry at ih ⊢
      rw [List.map_cons, List.find?_cons_of_neg _ (by simp [hne])]
      exact ih hnd.2 it hmem

theorem wellPlaced_faithful (text : Str) :
    ∀ (items : List SensitiveItem) (pos : Nat),
      wellPlaced text pos items = true →
      ∀ it ∈ items, it.original = slice text it.startIndex it.endIndex := by
  intro items
  induction items with
  | nil =>
    intro pos _ it hit
    exact absurd hit (List.not_mem_nil it)
  | cons x rest ih =>
    intro pos hw it hit
    obtain ⟨h1, h2, h3, h4, h5⟩ := wellPlaced_cons hw
    rcases List.mem_cons.mp hit with rfl | hmem
    · exact h4
    · exact ih x.endIndex h5 it hmem

theorem slice_sublist (text : Str) (s e : Nat) : (slice text s e).Sublist text :=
  ((text.drop s).take_sublist _).trans (text.drop_sublist s)

theorem partsWF_itemParts (text : Str) (hfree : bracketFree text = true) :
    ∀ (items : List SensitiveItem) (pos : Nat),
      (∀ it ∈ items, bracketToken it.replacement = true) →
      partsWF (itemParts text pos items) = true := by
  intro items
  induction items with
  | nil =>
    intro pos _
    show partsWF [(false, text.drop pos)] = true
    have : bracketFree (text.drop pos) = true :=
      bracketFree_sublist (text.drop_sublist pos) hfree
    simp [partsWF, this]
  | cons it rest ih =>
    intro pos htok
    show partsWF ((false, (text.drop pos).take (it.startIndex - pos)) ::
      (true, it.replacement) :: itemParts text it.endIndex rest) = true
    have hseg : bracketFree ((text.drop pos).take (it.startIndex - pos)) = true :=
      bracketFree_sublist
        (((text.drop pos).take_sublist _).trans (text.drop_sublist pos)) hfree
    have hrest := ih it.endIndex
      (fun y hy => htok y (List.mem_cons_of_mem _ hy))
    have hhead := htok it (List.mem_cons_self _ _)
    unfold partsWF at hrest ⊢
    simp [List.all_cons, hseg, hhead, hrest]

theorem joinParts_itemParts_restore (text : Str) (m : ReplacementMapping) :
    ∀ (items : List SensitiveItem) (pos : Nat),
      wellPlaced text pos items = true →
      (∀ it ∈ items, getEntry m it.replacement = some it.original) →
      joinParts ((itemParts text pos items).map (revealTok m)) =
        text.drop pos := by
  intro items
  induction items with
  | nil =>
    intro pos _ _
    show joinParts [revealTok m (false, text.drop pos)] = text.drop pos
    unfold revealTok
    rw [if_neg (by exact Bool.false_ne_true)]
    simp [joinParts]
  | cons it rest ih =>
    intro pos hw hge
    obtain ⟨h1, h2, h3, h4, h5⟩ := wellPlaced_cons hw
    have hhead := hge it (List.mem_cons_self _ _)
    show joinParts (revealTok m (false, (text.drop pos).take (it.startIndex - pos)) ::
      revealTok m (true, it.replacement) ::
      (itemParts text it.endIndex rest).map (revealTok m)) = text.drop pos
    have hseg : revealTok m (false, (text.drop pos).take (it.startIndex - pos)) =
        (false, (text.drop pos).take (it.startIndex - pos)) := by
      unfold revealTok
      rw [if_neg (by exact Bool.false_ne_true)]
    have htokv : revealTok m (true, it.replacement) = (false, it.original) := by
      unfold revealTok
      rw [if_pos rfl]
      show (match getEntry m it.replacement with
        | some v => ((false, v) : Bool × Str)
        | none => (true, it.replacement)) = (false, it.original)
      rw [hhead]
    rw [hseg, htokv]
    have hrest := ih it.endIndex h5 (fun y hy => hge y (List.mem_cons_of_mem _ hy))
    have hjoin : joinParts ((false, (text.drop pos).take (it.startIndex - pos)) ::
        (false, it.original) ::
        (itemParts text it.endIndex rest).map (revealTok m)) =
        (text.drop pos).take (it.startIndex - pos) ++
          (it.original ++ joinParts ((itemParts text it.endIndex rest).map (revealTok m))) := by
      simp [joinParts]
    rw [hjoin, hrest]
    rw [h4]
    unfold slice
    have e1 : (text.drop pos).drop (it.startIndex - pos) = text.drop it.startIndex := by
      rw [List.drop_drop]
      congr 1
      omega
    have e2 : (text.drop it.startIndex).drop (it.endIndex - it.startIndex) =
        text.drop it.endIndex := by
      rw [List.drop_drop]
      congr 1
      omega
    calc (text.drop pos).take (it.startIndex - pos) ++
          ((text.drop it.startIndex).take (it.endIndex - it.startIndex) ++
            text.drop it.endIndex)
        = (text.drop pos).take (it.startIndex - pos) ++
            ((text.drop it.startIndex).take (it.endIndex - it.startIndex) ++
              (text.drop it.startIndex).drop (it.endIndex - it.startIndex)) := by
          rw [e2]
      _ = (text.drop pos).take (it.startIndex - pos) ++ text.drop it.startIndex := by
          rw [List.take_append_drop]
      _ = (text.drop pos).take (it.startIndex - pos) ++
            (text.drop pos).drop (it.startIndex - pos) := by
          rw [e1]
      _ = text.drop pos := List.take_append_drop _ _

theorem applyReplacements_itemParts (text : Str) (items : List SensitiveItem)
    (hig : ∀ it ∈ items, it.ignored = false)
    (hw : wellPlaced text 0 items = true) :
    applyReplacements text items = joinParts (itemParts text 0 items) := by
  unfold applyReplacements
  rw [List.filter_eq_self.mpr (fun it hit => by rw [hig it hit]; rfl)]
  have hsort := sortLe_desc_of_ascending (fun x : SensitiveItem => x.startIndex)
    items (wellPlaced_pairwise text items 0 hw)
  rw [hsort]
  have h := foldl_splice_wellPlaced text items 0 hw
  simpa using h

/-- C1 counterexample: a single faithful non-ignored item whose placeholder
[P_1] already occurs verbatim in the input text.  The claim's stated
hypotheses hold (all items non-ignored; no item's original equals another
item's placeholder), yet the round trip rewrites the pre-existing
occurrence of [P_1] as well and does not restore the input. -/
theorem C1_counterexample :
    (([⟨str "i", SType.email, str "l", str "ab", str "[P_1]", 6, 8, false⟩] :
        List SensitiveItem).all (fun it => !it.ignored)) = true ∧
    restoreOriginals
        (applyReplacements (str "[P_1] ab")
          [⟨str "i", SType.email, str "l", str "ab", str "[P_1]", 6, 8, false⟩])
        (buildReplacementMapping
          [⟨str "i", SType.email, str "l", str "ab", str "[P_1]", 6, 8, false⟩]) ≠
      str "[P_1] ab" := by
  exact ⟨rfl, by decide⟩

/-- C1 (amended): the round trip restores the input whenever, additionally,
the item list is faithful to the text (nonempty, in-bounds, strictly
ascending, pairwise disjoint ranges whose original fields equal the text at
those ranges — as the scanner guarantees), the placeholders are pairwise
distinct bracket tokens, and the input text contains no bracket characters,
so that no placeholder already occurs in it. -/
theorem C1_round_trip (text : Str) (items : List SensitiveItem)
    (hig : ∀ it ∈ items, it.ignored = false)
    (hw : wellPlaced text 0 items = true)
    (htok : ∀ it ∈ items, bracketToken it.replacement = true)
    (hnd : (items.map (fun it => it.replacement)).Nodup)
    (hfree : bracketFree text = true) :
    restoreOriginals (applyReplacements text items)
      (buildReplacementMapping items) = text := by
  rw [applyReplacements_itemParts text items hig hw]
  rw [buildReplacementMapping_eq items hig hnd]
  have hm : ∀ kv ∈ items.map (fun it => (it.replacement, it.original)),
      bracketToken kv.1 = true ∧ bracketFree kv.2 = true := by
    intro kv hkv
    obtain ⟨it, hit, rfl⟩ := List.mem_map.mp hkv
    refine ⟨htok it hit, ?_⟩
    rw [wellPlaced_faithful text items 0 hw it hit]
    exact bracketFree_sublist (slice_sublist text _ _) hfree
  rw [restoreOriginals_reveal _ _ (partsWF_itemParts text hfree items 0 htok) hm]
  have h := joinParts_itemParts_restore text _ items 0 hw
    (getEntry_items_map items hnd)
  simpa using h

/-- C1 witness: the amended round trip on a concrete bracket-free text with
one faithful email item. -/
theorem C1_round_trip_witness :
    restoreOriginals
        (applyReplacements (str "Contact jane@x.io now")
          [⟨str "i", SType.email, str "l", str "jane@x.io", str "[EMAIL_1]",
            8, 17, false⟩])
        (buildReplacementMapping
          [⟨str "i", SType.email, str "l", str "jane@x.io", str "[EMAIL_1]",
            8, 17, false⟩]) = str "Contact jane@x.io now" :=
  C1_round_trip (str "Contact jane@x.io now")
    [⟨str "i", SType.email, str "l", str "jane@x.io", str "[EMAIL_1]", 8, 17,
      false⟩]
    (by decide) (by decide) (by decide) (by decide) (by decide)

/-- C7 (amended): hasMappablePlaceholders text m is true iff the text is
nonempty and at least one mapping key literally occurs as a substring of the
text.  (Equivalently, the claim as stated holds whenever every key is
nonempty; the code short-circuits empty text before testing inclusion.) -/
theorem C7_hasMappablePlaceholders_iff (text : Str) (m : ReplacementMapping) :
    hasMappablePlaceholders text m = true ↔
      text ≠ [] ∧ ∃ kv ∈ m, kv.1 <:+: text := by
  unfold hasMappablePlaceholders
  by_cases ht : text = []
  · subst ht
    simp [List.isEmpty]
  · by_cases hm : m = []
    · subst hm
      simp [List.isEmpty]
    · have h1 : text.isEmpty = false := by
        cases text with
        | nil => exact absurd rfl ht
        | cons c r => rfl
      have h2 : m.isEmpty = false := by
        cases m with
        | nil => exact absurd rfl hm
        | cons c r => rfl
      rw [h1, h2]
      simp only [Bool.or_self, if_false, Bool.false_eq_true, List.any_eq_true]
      constructor
      · rintro ⟨kv, hmem, hinc⟩
        exact ⟨ht, kv, hmem, (strIncludes_iff _ _).mp hinc⟩
      · rintro ⟨-, kv, hmem, hinf⟩
        exact ⟨kv, hmem, (strIncludes_iff _ _).mpr hinf⟩

/-! ## Lemmas about the decimal rendering and placeholder parsing -/

theorem digitCh_range (d : Nat) : '0' ≤ digitCh d ∧ digitCh d ≤ '9' := by
  unfold digitCh
  split <;> exact ⟨by decide, by decide⟩

theorem digitCh_toNat (d : Nat) (h : d < 10) : (digitCh d).toNat = 48 + d := by
  interval_cases d <;> rfl

theorem digit_ne {c : Char} (h : '0' ≤ c ∧ c ≤ '9') :
    c ≠ '_' ∧ c ≠ '-' ∧ c ≠ '[' ∧ c ≠ ']' := by
  refine ⟨?_, ?_, ?_, ?_⟩ <;> rintro rfl <;> revert h <;> decide

theorem natDigitsGo_append : ∀ (fuel n : Nat) (acc : Str),
    natDigitsGo fuel n acc = natDigitsGo fuel n [] ++ acc := by
  intro fuel
  induction fuel with
  | zero =>
    intro n acc
    rfl
  | succ f ih =>
    intro n acc
    by_cases hn : n = 0
    · simp only [natDigitsGo, if_pos hn]
      rfl
    · simp only [natDigitsGo, if_neg hn]
      rw [ih (n / 10) (digitCh (n % 10) :: acc), ih (n / 10) [digitCh (n % 10)]]
      simp

theorem digitsVal_append_digit (xs : Str) (c : Char) :
    digitsVal (xs ++ [c]) = digitsVal xs * 10 + (c.toNat - 48) := by
  unfold digitsVal
  rw [List.foldl_append]
  rfl

theorem natDigitsGo_val : ∀ (fuel n : Nat), n ≤ fuel →
    digitsVal (natDigitsGo fuel n []) = n := by
  intro fuel
  induction fuel with
  | zero =>
    intro n h
    have : n = 0 := Nat.le_zero.mp h
    subst this
    rfl
  | succ f ih =>
    intro n h
    by_cases hn : n = 0
    · subst hn
      rfl
    · simp only [natDigitsGo, if_neg hn]
      rw [natDigitsGo_append f (n / 10) [digitCh (n % 10)],
        digitsVal_append_digit]
      have hdiv : n / 10 ≤ f := by
        have := Nat.div_lt_self (Nat.pos_of_ne_zero hn) (by norm_num : 1 < 10)
        omega
      rw [ih (n / 10) hdiv, digitCh_toNat (n % 10) (Nat.mod_lt n (by norm_num))]
      omega

theorem natRepr_val (n : Nat) : digitsVal (natRepr n) = n := by
  unfold natRepr
  by_cases hn : n = 0
  · subst hn
    rfl
  · rw [if_neg hn]
    exact natDigitsGo_val (n + 1) n (Nat.le_succ n)

theorem natRepr_inj {n m : Nat} (h : natRepr n = natRepr m) : n = m := by
  have h1 := natRepr_val n
  rw [h, natRepr_val] at h1
  omega

theorem natDigitsGo_chars : ∀ (fuel n : Nat) (acc : Str),
    (∀ c ∈ acc, '0' ≤ c ∧ c ≤ '9') →
    ∀ c ∈ natDigitsGo fuel n acc, '0' ≤ c ∧ c ≤ '9' := by
  intro fuel
  induction fuel with
  | zero =>
    intro n acc hacc
    exact hacc
  | succ f ih =>
    intro n acc hacc
    by_cases hn : n = 0
    · simp only [natDigitsGo, if_pos hn]
      exact hacc
    · simp only [natDigitsGo, if_neg hn]
      apply ih (n / 10)
      intro c hc
      rcases List.mem_cons.mp hc with rfl | hmem
      · exact digitCh_range (n % 10)
      · exact hacc c hmem

theorem natRepr_digits (n : Nat) : ∀ c ∈ natRepr n, '0' ≤ c ∧ c ≤ '9' := by
  unfold natRepr
  by_cases hn : n = 0
  · rw [if_pos hn]
    intro c hc
    rw [List.mem_singleton] at hc
    subst hc
    exact ⟨by decide, by decide⟩
  · rw [if_neg hn]
    exact natDigitsGo_chars (n + 1) n [] (fun c hc => absurd hc (List.not_mem_nil c))

theorem splitLastUS_none {b : Str} (h : '_' ∉ b) : splitLastUS b = none := by
  induction b with
  | nil => rfl
  | cons c rest ih =>
    have h1 : c ≠ '_' := fun hh => h (hh ▸ List.mem_cons_self c rest)
    have h2 : '_' ∉ rest := fun hh => h (List.mem_cons_of_mem c hh)
    simp only [splitLastUS, ih h2]
    rw [if_neg h1]

theorem splitLastUS_eq (a b : Str) (h : '_' ∉ b) :
    splitLastUS (a ++ '_' :: b) = some (a, b) := by
  induction a with
  | nil =>
    show splitLastUS ('_' :: b) = some ([], b)
    simp [splitLastUS, splitLastUS_none h]
  | cons c a' ih =>
    show splitLastUS (c :: (a' ++ '_' :: b)) = some (c :: a', b)
    simp only [splitLastUS, ih]

theorem splitFirstDash_eq (a b : Str) (h : '-' ∉ a) :
    splitFirstDash (a ++ '-' :: b) = some (a, b) := by
  induction a with
  | nil =>
    show splitFirstDash ('-' :: b) = some ([], b)
    simp [splitFirstDash]
  | cons c a' ih =>
    have h1 : c ≠ '-' := fun hh => h (hh ▸ List.mem_cons_self c a')
    have h2 : '-' ∉ a' := fun hh => h (List.mem_cons_of_mem c hh)
    show splitFirstDash (c :: (a' ++ '-' :: b)) = some (c :: a', b)
    simp only [splitFirstDash, if_neg h1, ih h2]
    rfl

theorem phParse_mkPlaceholder (P : Str) (n : Nat) :
    phParse (mkPlaceholder P n) = some (P, natRepr n) := by
  unfold mkPlaceholder phParse
  have hshape : P ++ '_' :: (natRepr n ++ [']']) = (P ++ '_' :: natRepr n) ++ [']'] := by
    simp
  show (if '[' = '[' ∧ (P ++ '_' :: (natRepr n ++ [']'])).getLast? = some ']'
      then splitLastUS (P ++ '_' :: (natRepr n ++ [']'])).dropLast else none) =
    some (P, natRepr n)
  rw [if_pos ?c]
  case c =>
    refine ⟨rfl, ?_⟩
    rw [hshape]
    exact List.getLast?_concat _
  rw [hshape, List.dropLast_concat]
  exact splitLastUS_eq P (natRepr n)
    (fun hmem => (digit_ne (natRepr_digits n _ hmem)).1 rfl)

theorem mkPlaceholder_inj {P Q : Str} {n m : Nat}
    (h : mkPlaceholder P n = mkPlaceholder Q m) : P = Q ∧ n = m := by
  have h1 := phParse_mkPlaceholder P n
  rw [h, phParse_mkPlaceholder] at h1
  have h2 : (Q, natRepr m) = (P, natRepr n) := Option.some.inj h1
  have hp : Q = P := congrArg Prod.fst h2
  have hd : natRepr m = natRepr n := congrArg Prod.snd h2
  exact ⟨hp.symm, (natRepr_inj hd).symm⟩

theorem phPrefixOf_mkPlaceholder (P : Str) (n : Nat) :
    phPrefixOf (mkPlaceholder P n) = some P := by
  unfold phPrefixOf
  rw [phParse_mkPlaceholder]
  rfl

theorem typeStr_no_dash (t : SType) : '-' ∉ typeStr t := by
  cases t <;> decide

theorem typeStr_inj {t1 t2 : SType} (h : typeStr t1 = typeStr t2) : t1 = t2 := by
  cases t1 <;> cases t2 <;> first | rfl | exact absurd h (by decide)

theorem idParse_mkId (t : SType) (s e : Nat) :
    idParse (mkId t s e) = some (typeStr t, natRepr s, natRepr e) := by
  unfold mkId idParse
  rw [splitFirstDash_eq _ _ (typeStr_no_dash t)]
  show (match splitFirstDash (natRepr s ++ '-' :: natRepr e) with
      | some (a, b) => some (typeStr t, a, b)
      | none => none) = some (typeStr t, natRepr s, natRepr e)
  rw [splitFirstDash_eq _ _
    (fun hmem => (digit_ne (natRepr_digits s _ hmem)).2.1 rfl)]

theorem mkId_inj {t1 t2 : SType} {s1 s2 e1 e2 : Nat}
    (h : mkId t1 s1 e1 = mkId t2 s2 e2) : t1 = t2 ∧ s1 = s2 ∧ e1 = e2 := by
  have h1 := idParse_mkId t1 s1 e1
  rw [h, idParse_mkId] at h1
  have h2 := Option.some.inj h1
  have ht : typeStr t2 = typeStr t1 := congrArg Prod.fst h2
  have hs : natRepr s2 = natRepr s1 := congrArg (fun pr => pr.2.1) h2
  have he : natRepr e2 = natRepr e1 := congrArg (fun pr => pr.2.2) h2
  exact ⟨(typeStr_inj ht).symm, (natRepr_inj hs).symm, (natRepr_inj he).symm⟩

/-! ## The scan invariant -/

theorem rangesOverlap_comm (a b : Nat × Nat) :
    rangesOverlap a b = rangesOverlap b a := by
  unfold rangesOverlap
  rw [Bool.and_comm]

theorem ItemsInv_empty (text : Str) : ItemsInv text ⟨[], [], []⟩ := by
  refine ⟨rfl, List.Pairwise.nil, fun P => rfl, List.nodup_nil, fun it hit =>
    absurd hit (List.not_mem_nil it)⟩

theorem any_eq_false_of_not {l : List α} {p : α → Bool}
    (h : ¬ l.any p = true) : ∀ x ∈ l, p x = false := by
  intro x hx
  cases hb : p x with
  | false => rfl
  | true => exact absurd (List.any_eq_true.mpr ⟨x, hx, hb⟩) h

theorem processMatch_inv (text : Str) (p : PatternRun) (st : ScanState)
    (m : Nat × Nat) (h : ItemsInv text st) :
    ItemsInv text (processMatch text p st m) := by
  obtain ⟨hra, hpw, hgr, hnd, hitems⟩ := h
  unfold processMatch
  split_ifs with h1 h2 h3 h4
  · exact ⟨hra, hpw, hgr, hnd, hitems⟩
  · exact ⟨hra, hpw, hgr, hnd, hitems⟩
  · exact ⟨hra, hpw, hgr, hnd, hitems⟩
  · exact ⟨hra, hpw, hgr, hnd, hitems⟩
  · -- acceptance: the new item is appended
    have hof : ∀ r ∈ st.usedRanges, rangesOverlap (m.1, m.2) r = false :=
      any_eq_false_of_not h1
    refine ⟨?_, ?_, ?_, ?_, ?_⟩
    · show st.usedRanges ++ [(m.1, m.2)] = _
      rw [hra, List.map_append]
      rfl
    · apply List.pairwise_append.mpr
      refine ⟨hpw, List.pairwise_singleton _ _, ?_⟩
      intro a ha b hb
      rw [List.mem_singleton] at hb
      subst hb
      show rangesOverlap (a.startIndex, a.endIndex) (m.1, m.2) = false
      rw [rangesOverlap_comm]
      exact hof (a.startIndex, a.endIndex) (hra ▸ List.mem_map_of_mem _ ha)
    · intro P
      by_cases hP : P = p.pfx
      · subst hP
        have hpass : (phPrefixOf (mkPlaceholder p.pfx (counterGet st.counters p.pfx + 1)) ==
            some p.pfx) = true := by
          rw [phPrefixOf_mkPlaceholder]
          exact beq_self_eq_true _
        show (groupItems p.pfx (st.items ++ [_])).map _ = _
        unfold groupItems
        rw [List.filter_append]
        have hsing : List.filter
            (fun it => phPrefixOf it.replacement == some p.pfx)
            ([⟨mkId p.ptype m.1 m.2, p.ptype, p.label, slice text m.1 m.2,
              mkPlaceholder p.pfx (counterGet st.counters p.pfx + 1), m.1, m.2,
              false⟩] : List SensitiveItem) =
            ([⟨mkId p.ptype m.1 m.2, p.ptype, p.label, slice text m.1 m.2,
              mkPlaceholder p.pfx (counterGet st.counters p.pfx + 1), m.1, m.2,
              false⟩] : List SensitiveItem) := by
          show (bif phPrefixOf (mkPlaceholder p.pfx (counterGet st.counters p.pfx + 1)) ==
              some p.pfx
            then ([⟨mkId p.ptype m.1 m.2, p.ptype, p.label, slice text m.1 m.2,
              mkPlaceholder p.pfx (counterGet st.counters p.pfx + 1), m.1, m.2,
              false⟩] : List SensitiveItem)
            else []) = _
          rw [hpass]
          rfl
        rw [hsing, List.map_append]
        have hcnt : counterGet
            (setEntry st.counters p.pfx (counterGet st.counters p.pfx + 1)) p.pfx =
            counterGet st.counters p.pfx + 1 := by
          unfold counterGet
          rw [getEntry_setEntry_self]
          rfl
        rw [hcnt, List.range_succ, List.map_append]
        congr 1
        exact hgr p.pfx
      · have hfail : (phPrefixOf (mkPlaceholder p.pfx (counterGet st.counters p.pfx + 1)) ==
            some P) = false := by
          rw [phPrefixOf_mkPlaceholder]
          apply beq_eq_false_iff_ne.mpr
          intro hh
          exact hP (Option.some.inj hh).symm
        show (groupItems P (st.items ++ [_])).map _ = _
        unfold groupItems
        rw [List.filter_append]
        have hsing : List.filter
            (fun it => phPrefixOf it.replacement == some P)
            ([⟨mkId p.ptype m.1 m.2, p.ptype, p.label, slice text m.1 m.2,
              mkPlaceholder p.pfx (counterGet st.counters p.pfx + 1), m.1, m.2,
              false⟩] : List SensitiveItem) = [] := by
          show (bif phPrefixOf (mkPlaceholder p.pfx (counterGet st.counters p.pfx + 1)) ==
              some P
            then ([⟨mkId p.ptype m.1 m.2, p.ptype, p.label, slice text m.1 m.2,
              mkPlaceholder p.pfx (counterGet st.counters p.pfx + 1), m.1, m.2,
              false⟩] : List SensitiveItem)
            else []) = []
          rw [hfail]
          rfl
        rw [hsing, List.append_nil]
        have hcnt : counterGet
            (setEntry st.counters p.pfx (counterGet st.counters p.pfx + 1)) P =
            counterGet st.counters P := by
          unfold counterGet
          rw [getEntry_setEntry_ne _ _ _ _ hP]
        rw [hcnt]
        exact hgr P
    · show (List.map _ (st.items ++ [_])).Nodup
      rw [List.map_append]
      apply List.nodup_append.mpr
      refine ⟨hnd, List.nodup_singleton _, ?_⟩
      intro r hr hmem
      simp only [List.map_cons, List.map_nil, List.mem_singleton] at hmem
      subst hmem
      obtain ⟨a, ha, hrepl⟩ := List.mem_map.mp hr
      have hgrp : a ∈ groupItems p.pfx st.items := by
        unfold groupItems
        apply List.mem_filter.mpr
        refine ⟨ha, ?_⟩
        rw [hrepl, phPrefixOf_mkPlaceholder]
        exact beq_self_eq_true _
      have : a.replacement ∈ (groupItems p.pfx st.items).map
          (fun it => it.replacement) := List.mem_map_of_mem _ hgrp
      rw [hgr p.pfx] at this
      obtain ⟨i, hi, heq⟩ := List.mem_map.mp this
      rw [List.mem_range] at hi
      rw [hrepl] at heq
      have := (mkPlaceholder_inj heq).2
      omega
    · intro it hit
      rcases List.mem_append.mp hit with hmem | hmem
      · exact hitems it hmem
      · rw [List.mem_singleton] at hmem
        subst hmem
        refine ⟨⟨p.pfx, counterGet st.counters p.pfx + 1, by omega, rfl⟩,
          rfl, rfl, rfl, ?_, ?_⟩
        · show p.ptype = .ssn → countDigits (slice text m.1 m.2) = 9
          intro hssn
          by_contra hne
          exact h2 ⟨hssn, hne⟩
        · show p.ptype = .phone → 10 ≤ countDigits (slice text m.1 m.2) ∧
            countDigits (slice text m.1 m.2) ≤ 15
          intro hphone
          constructor
          · by_contra hlt
            exact h3 ⟨hphone, Or.inl (by omega)⟩
          · by_contra hgt
            exact h3 ⟨hphone, Or.inr (by omega)⟩

theorem foldl_processMatch_inv (text : Str) (p : PatternRun) :
    ∀ (l : List (Nat × Nat)) (st : ScanState), ItemsInv text st →
      ItemsInv text (l.foldl (processMatch text p) st) := by
  intro l
  induction l with
  | nil => intro st h; exact h
  | cons m rest ih =>
    intro st h
    exact ih _ (processMatch_inv text p st m h)

theorem scanCore_inv (text : Str) (ps : List PatternRun) :
    ItemsInv text (scanCore text ps) := by
  have hgen : ∀ (l : List PatternRun) (st : ScanState), ItemsInv text st →
      ItemsInv text (l.foldl (runPattern text) st) := by
    intro l
    induction l with
    | nil => intro st h; exact h
    | cons q rest ih =>
      intro st h
      exact ih _ (foldl_processMatch_inv text q q.found st h)
  exact hgen ps ⟨[], [], []⟩ (ItemsInv_empty text)

/-! ## Sortedness of the scanner output -/

theorem insertLe_perm (le : α → α → Bool) (x : α) (l : List α) :
    (insertLe le x l).Perm (x :: l) := by
  induction l with
  | nil => exact List.Perm.refl _
  | cons y ys ih =>
    unfold insertLe
    by_cases hle : le x y = true
    · rw [if_pos hle]
    · rw [if_neg hle]
      exact (ih.cons y).trans (List.Perm.swap x y ys)

theorem sortLe_perm (le : α → α → Bool) (l : List α) :
    (sortLe le l).Perm l := by
  induction l with
  | nil => exact List.Perm.refl _
  | cons x xs ih =>
    exact (insertLe_perm le x (sortLe le xs)).trans (ih.cons x)

theorem insertLe_pairwise (le : α → α → Bool)
    (htot : ∀ a b, le a b = false → le b a = true)
    (htrans : ∀ a b c, le a b = true → le b c = true → le a c = true)
    (x : α) (l : List α) (h : l.Pairwise (fun a b => le a b = true)) :
    (insertLe le x l).Pairwise (fun a b => le a b = true) := by
  induction l with
  | nil => exact List.pairwise_singleton _ _
  | cons y ys ih =>
    obtain ⟨hy, hys⟩ := List.pairwise_cons.mp h
    unfold insertLe
    by_cases hle : le x y = true
    · rw [if_pos hle]
      refine List.pairwise_cons.mpr ⟨?_, h⟩
      intro z hz
      rcases List.mem_cons.mp hz with rfl | hmem
      · exact hle
      · exact htrans x y z hle (hy z hmem)
    · rw [if_neg hle]
      refine List.pairwise_cons.mpr ⟨?_, ih hys⟩
      intro z hz
      have hz2 := (insertLe_perm le x ys).mem_iff.mp hz
      rcases List.mem_cons.mp hz2 with rfl | hmem
      · exact htot z y (Bool.eq_false_iff.mpr hle)
      · exact hy z hmem

theorem sortLe_pairwise (le : α → α → Bool)
    (htot : ∀ a b, le a b = false → le b a = true)
    (htrans : ∀ a b c, le a b = true → le b c = true → le a c = true)
    (l : List α) : (sortLe le l).Pairwise (fun a b => le a b = true) := by
  induction l with
  | nil => exact List.Pairwise.nil
  | cons x xs ih => exact insertLe_pairwise le htot htrans x (sortLe le xs) ih

theorem detect_items_perm (text : Str) :
    ((detectSensitiveInfo text).items).Perm
      (scanCore text (patternRuns text)).items := by
  show (sortLe _ _).Perm _
  exact sortLe_perm _ _

/-- C2: for every input text, the items detect returns have pairwise
non-overlapping half-open ranges (under the source's intersection test
rangesOverlap), and the item list is sorted ascending by startIndex. -/
theorem C2_detect_nonoverlap_sorted (text : Str) :
    (detectSensitiveInfo text).items.Pairwise (fun a b =>
      rangesOverlap (a.startIndex, a.endIndex)
        (b.startIndex, b.endIndex) = false) ∧
    (detectSensitiveInfo text).items.Pairwise
      (fun a b => a.startIndex ≤ b.startIndex) := by
  obtain ⟨-, hpw, -, -, -⟩ := scanCore_inv text (patternRuns text)
  constructor
  · have hsym : Symmetric (fun a b : SensitiveItem =>
        rangesOverlap (a.startIndex, a.endIndex)
          (b.startIndex, b.endIndex) = false) := by
      intro a b hab
      rw [rangesOverlap_comm]
      exact hab
    exact ((detect_items_perm text).pairwise_iff (fun {a b} hab => hsym hab)).mpr hpw
  · have hs := sortLe_pairwise
      (fun a b : SensitiveItem => decide (a.startIndex ≤ b.startIndex))
      (fun a b hf => by
        simp only [decide_eq_false_iff_not, Nat.not_le] at hf
        simp only [decide_eq_true_eq]
        omega)
      (fun a b c h1 h2 => by
        simp only [decide_eq_true_eq] at h1 h2 ⊢
        omega)
      (scanCore text (patternRuns text)).items
    have : (detectSensitiveInfo text).items = sortLe
        (fun a b : SensitiveItem => decide (a.startIndex ≤ b.startIndex))
        (scanCore text (patternRuns text)).items := rfl
    rw [this]
    exact hs.imp (fun hab => by
      simp only [decide_eq_true_eq] at hab
      exact hab)

/-- C4: within one detect pass, for every placeholder prefix the accepted
items whose placeholder carries that prefix (across all rules using it)
receive exactly the placeholders numbered 1 through the group size, with no
duplicates, and no two distinct items of the result carry the same
placeholder string. -/
theorem C4_placeholder_uniqueness (text : Str) (P : Str) :
    ((groupItems P (detectSensitiveInfo text).items).map
        (fun it => it.replacement)).Perm
      ((List.range (groupItems P (detectSensitiveInfo text).items).length).map
        (fun i => mkPlaceholder P (i + 1))) ∧
    ((detectSensitiveInfo text).items.map (fun it => it.replacement)).Nodup := by
  obtain ⟨-, -, hgr, hnd, -⟩ := scanCore_inv text (patternRuns text)
  have hperm := detect_items_perm text
  constructor
  · have h1 : (groupItems P (detectSensitiveInfo text).items).Perm
        (groupItems P (scanCore text (patternRuns text)).items) :=
      hperm.filter _
    have h2 := h1.map (fun it : SensitiveItem => it.replacement)
    have hlen : (groupItems P (detectSensitiveInfo text).items).length =
        counterGet (scanCore text (patternRuns text)).counters P := by
      have hl1 := h1.length_eq
      have hl2 : ((groupItems P (scanCore text (patternRuns text)).items).map
          (fun it => it.replacement)).length =
          ((List.range (counterGet (scanCore text (patternRuns text)).counters P)).map
            (fun i => mkPlaceholder P (i + 1))).length := by
        rw [hgr P]
      simp only [List.length_map, List.length_range] at hl2
      omega
    rw [hlen]
    exact (hgr P) ▸ h2
  · exact (hperm.map (fun it : SensitiveItem => it.replacement)).nodup_iff.mpr hnd

/-- C5: every item detect returns with category ssn has exactly 9 digit
characters in its original substring after stripping separators, and every
phone item between 10 and 15 digits inclusive; in particular an 8-digit
token is never flagged ssn and a 16-digit sequence is never flagged phone. -/
theorem C5_validator_bounds (text : Str) :
    ∀ it ∈ (detectSensitiveInfo text).items,
      (it.type = .ssn → countDigits it.original = 9) ∧
      (it.type = .phone →
        10 ≤ countDigits it.original ∧ countDigits it.original ≤ 15) ∧
      (countDigits it.original = 8 → it.type ≠ .ssn) ∧
      (countDigits it.original = 16 → it.type ≠ .phone) := by
  intro it hit
  obtain ⟨-, -, -, -, hitems⟩ := scanCore_inv text (patternRuns text)
  have hmem := (detect_items_perm text).mem_iff.mp hit
  obtain ⟨-, -, -, -, hssn, hphone⟩ := hitems it hmem
  refine ⟨hssn, hphone, ?_, ?_⟩
  · intro h8 hs
    have := hssn hs
    omega
  · intro h16 hp
    have := hphone hp
    omega

/-- C5 witness: the ssn item of a concrete scan has exactly nine digits. -/
theorem C5_validator_bounds_witness :
    (⟨str "ssn-0-11", SType.ssn, str "Social Security Number",
        str "123-45-6789", str "[SSN_1]", 0, 11, false⟩ : SensitiveItem) ∈
      (detectSensitiveInfo (str "123-45-6789")).items ∧
    countDigits (str "123-45-6789") = 9 := by
  refine ⟨?hm, ?_⟩
  case hm => decide
  have h := C5_validator_bounds (str "123-45-6789")
    ⟨str "ssn-0-11", SType.ssn, str "Social Security Number",
      str "123-45-6789", str "[SSN_1]", 0, 11, false⟩ (by decide)
  exact h.1 rfl

/-! ## Soundness of the regex engine: matches consume at least minLen and at
most the remaining suffix -/

theorem mrun_sound : ∀ (fuel : Nat) (re : RE) (pre suf : Str)
    (k : Str → Str → Option Nat) (res : Nat),
    mrun fuel re pre suf k = some res →
    ∃ mid rest, suf = mid ++ rest ∧ minLen re ≤ mid.length ∧
      k (mid.reverse ++ pre) rest = some res := by
  intro fuel
  induction fuel with
  | zero =>
    intro re pre suf k res h
    exact absurd h (by simp [mrun])
  | succ f ih =>
    intro re pre suf k res h
    cases re with
    | eps =>
      exact ⟨[], suf, rfl, Nat.le_refl _, h⟩
    | cls p =>
      cases suf with
      | nil => exact absurd h (by simp [mrun])
      | cons c rest =>
        simp only [mrun] at h
        by_cases hp : p c = true
        · rw [if_pos hp] at h
          exact ⟨[c], rest, rfl, Nat.le_refl _, h⟩
        · rw [if_neg hp] at h
          exact absurd h (by simp)
    | seq a b =>
      simp only [mrun] at h
      obtain ⟨mid1, rest1, hs1, hm1, hk1⟩ := ih a pre suf _ res h
      obtain ⟨mid2, rest2, hs2, hm2, hk2⟩ := ih b (mid1.reverse ++ pre) rest1 k res hk1
      refine ⟨mid1 ++ mid2, rest2, ?_, ?_, ?_⟩
      · rw [hs1, hs2, List.append_assoc]
      · show minLen a + minLen b ≤ _
        rw [List.length_append]
        omega
      · rw [List.reverse_append, List.append_assoc]
        exact hk2
    | alt a b =>
      simp only [mrun] at h
      cases hma : mrun f a pre suf k with
      | some r =>
        rw [hma] at h
        obtain ⟨mid, rest, hs, hm, hk⟩ := ih a pre suf k r hma
        have : r = res := Option.some.inj h
        subst this
        exact ⟨mid, rest, hs, le_trans (Nat.min_le_left _ _) hm, hk⟩
      | none =>
        rw [hma] at h
        obtain ⟨mid, rest, hs, hm, hk⟩ := ih b pre suf k res h
        exact ⟨mid, rest, hs, le_trans (Nat.min_le_right _ _) hm, hk⟩
    | rep a lo hi =>
      simp only [mrun] at h
      by_cases hhi : hi = some 0
      · rw [if_pos hhi] at h
        subst hhi
        refine ⟨[], suf, rfl, ?_, h⟩
        show min lo ((some 0).getD lo) * minLen a ≤ 0
        simp
      · rw [if_neg hhi] at h
        cases hma : mrun f a pre suf (fun pre1 suf1 =>
            if lo = 0 ∧ suf1.length = suf.length then none
            else mrun f (.rep a (lo - 1) (decOpt hi)) pre1 suf1 k) with
        | some r =>
          rw [hma] at h
          have hres : r = res := Option.some.inj h
          subst hres
          obtain ⟨mid1, rest1, hs1, hm1, hk1⟩ := ih a pre suf _ r hma
          by_cases hcond : lo = 0 ∧ rest1.length = suf.length
          · rw [if_pos hcond] at hk1
            exact absurd hk1 (by simp)
          · rw [if_neg hcond] at hk1
            obtain ⟨mid2, rest2, hs2, hm2, hk2⟩ :=
              ih (.rep a (lo - 1) (decOpt hi)) (mid1.reverse ++ pre) rest1 k r hk1
            refine ⟨mid1 ++ mid2, rest2, ?_, ?_, ?_⟩
            · rw [hs1, hs2, List.append_assoc]
            · show min lo (hi.getD lo) * minLen a ≤ _
              have hstep : min lo (hi.getD lo) ≤
                  1 + min (lo - 1) ((decOpt hi).getD (lo - 1)) := by
                cases hi with
                | none => simp [decOpt]; omega
                | some hh =>
                  have : hh ≠ 0 := fun hz => hhi (by rw [hz])
                  simp [decOpt]
                  omega
              have hm2' : min (lo - 1) ((decOpt hi).getD (lo - 1)) * minLen a ≤
                  mid2.length := hm2
              calc min lo (hi.getD lo) * minLen a ≤
                  (1 + min (lo - 1) ((decOpt hi).getD (lo - 1))) * minLen a :=
                    Nat.mul_le_mul_right _ hstep
                _ = minLen a + min (lo - 1) ((decOpt hi).getD (lo - 1)) * minLen a := by
                    rw [Nat.add_mul, Nat.one_mul]
                _ ≤ mid1.length + mid2.length := Nat.add_le_add hm1 hm2'
                _ = (mid1 ++ mid2).length := (List.length_append _ _).symm
            · rw [List.reverse_append, List.append_assoc]
              exact hk2
        | none =>
          rw [hma] at h
          by_cases hlo : lo = 0
          · rw [if_pos hlo] at h
            subst hlo
            refine ⟨[], suf, rfl, ?_, h⟩
            simp [minLen]
          · rw [if_neg hlo] at h
            exact absurd h (by simp)
    | wordBoundary =>
      simp only [mrun] at h
      by_cases hb : atWordBoundary pre suf = true
      · rw [if_pos hb] at h
        exact ⟨[], suf, rfl, Nat.le_refl _, h⟩
      · rw [if_neg hb] at h
        exact absurd h (by simp)
    | lookahead a =>
      simp only [mrun] at h
      cases hma : mrun f a pre suf (fun _ _ => some 0) with
      | some r =>
        rw [hma] at h
        exact ⟨[], suf, rfl, Nat.le_refl _, h⟩
      | none =>
        rw [hma] at h
        exact absurd h (by simp)
    | lookbehind a =>
      simp only [mrun] at h
      obtain ⟨mid, rest, hs, -, hk⟩ := ih (.lbFrom a 0) pre suf k res h
      exact ⟨mid, rest, hs, Nat.zero_le _, hk⟩
    | lbFrom a j =>
      simp only [mrun] at h
      by_cases hj : pre.length < j
      · rw [if_pos hj] at h
        exact absurd h (by simp)
      · rw [if_neg hj] at h
        cases hma : mrun f a (pre.drop j) ((pre.take j).reverse)
            (fun _ s2 => if s2.isEmpty then some 0 else none) with
        | some r =>
          rw [hma] at h
          exact ⟨[], suf, rfl, Nat.le_refl _, h⟩
        | none =>
          rw [hma] at h
          obtain ⟨mid, rest, hs, -, hk⟩ := ih (.lbFrom a (j + 1)) pre suf k res h
          exact ⟨mid, rest, hs, Nat.zero_le _, hk⟩

theorem matchAt_sound (re : RE) (pre suf : Str) (len : Nat)
    (h : matchAt re pre suf = some len) :
    minLen re ≤ len ∧ len ≤ suf.length := by
  obtain ⟨mid, rest, hsuf, hmin, hk⟩ :=
    mrun_sound (matchFuel pre suf) re pre suf _ len h
  have hlen : suf.length = mid.length + rest.length := by
    rw [hsuf, List.length_append]
  have hres : suf.length - rest.length = len := Option.some.inj hk
  omega

theorem execGo_bounds (re : RE) (hre : 1 ≤ minLen re) :
    ∀ (fuel : Nat) (pre suf : Str) (pos : Nat),
      ∀ se ∈ execGo fuel re pre suf pos,
        pos ≤ se.1 ∧ se.1 < se.2 ∧ se.2 ≤ pos + suf.length := by
  intro fuel
  induction fuel with
  | zero =>
    intro pre suf pos se hse
    exact absurd hse (List.not_mem_nil se)
  | succ f ih =>
    intro pre suf pos se hse
    simp only [execGo] at hse
    cases hma : matchAt re pre suf with
    | some len =>
      obtain ⟨hmin, hmax⟩ := matchAt_sound re pre suf len hma
      have hlen1 : 1 ≤ len := le_trans hre hmin
      simp only [hma] at hse
      rw [if_neg (show ¬ len = 0 by omega)] at hse
      rcases List.mem_cons.mp hse with rfl | hmem
      · refine ⟨Nat.le_refl _, by omega, by omega⟩
      · have := ih ((suf.take len).reverse ++ pre) (suf.drop len) (pos + len) se hmem
        have hdl : (suf.drop len).length = suf.length - len := List.length_drop _ _
        omega
    | none =>
      simp only [hma] at hse
      cases suf with
      | nil => exact absurd hse (List.not_mem_nil se)
      | cons c rest =>
        have := ih (c :: pre) rest (pos + 1) se hse
        have : pos ≤ se.1 ∧ se.1 < se.2 ∧ se.2 ≤ pos + 1 + rest.length := by
          obtain ⟨h1, h2, h3⟩ := this
          exact ⟨by omega, h2, h3⟩
        obtain ⟨h1, h2, h3⟩ := this
        refine ⟨h1, h2, ?_⟩
        simp only [List.length_cons]
        omega

theorem execAll_bounds (re : RE) (hre : 1 ≤ minLen re) (text : Str) :
    ∀ se ∈ execAll re text, se.1 < se.2 ∧ se.2 ≤ text.length := by
  intro se hse
  have := execGo_bounds re hre (text.length + 1) [] text 0 se hse
  omega

theorem minLen_registry : ∀ q ∈ DETECTION_PATTERNS, 1 ≤ minLen q.re := by
  decide

theorem patternRuns_bounded (text : Str) :
    BoundedRuns text (patternRuns text) := by
  intro p hp se hse
  obtain ⟨q, hq, rfl⟩ := List.mem_map.mp hp
  exact execAll_bounds q.re (minLen_registry q hq) text se hse

theorem scanCore_bounds (text : Str) (ps : List PatternRun)
    (hb : BoundedRuns text ps) :
    ∀ it ∈ (scanCore text ps).items,
      it.startIndex < it.endIndex ∧ it.endIndex ≤ text.length := by
  have hstep : ∀ (p : PatternRun), (∀ se ∈ p.found, se.1 < se.2 ∧ se.2 ≤ text.length) →
      ∀ (l : List (Nat × Nat)) (st : ScanState),
      (∀ se ∈ l, se.1 < se.2 ∧ se.2 ≤ text.length) →
      (∀ it ∈ st.items, it.startIndex < it.endIndex ∧ it.endIndex ≤ text.length) →
      ∀ it ∈ (l.foldl (processMatch text p) st).items,
        it.startIndex < it.endIndex ∧ it.endIndex ≤ text.length := by
    intro p hpb l
    induction l with
    | nil =>
      intro st _ hst it hit
      exact hst it hit
    | cons m rest ihl =>
      intro st hl hst it hit
      refine ihl _ ?_ ?_ it hit
      · intro se hse
        exact hl se (List.mem_cons_of_mem m hse)
      · intro y hy
        unfold processMatch at hy
        split_ifs at hy
        · exact hst y hy
        · exact hst y hy
        · exact hst y hy
        · exact hst y hy
        · rcases List.mem_append.mp hy with hmem | hmem
          · exact hst y hmem
          · rw [List.mem_singleton] at hmem
            subst hmem
            exact hl m (List.mem_cons_self m rest)
  have hgen : ∀ (l : List PatternRun) (st : ScanState),
      (∀ p ∈ l, ∀ se ∈ p.found, se.1 < se.2 ∧ se.2 ≤ text.length) →
      (∀ it ∈ st.items, it.startIndex < it.endIndex ∧ it.endIndex ≤ text.length) →
      ∀ it ∈ (l.foldl (runPattern text) st).items,
        it.startIndex < it.endIndex ∧ it.endIndex ≤ text.length := by
    intro l
    induction l with
    | nil =>
      intro st _ hst it hit
      exact hst it hit
    | cons q rest ihl =>
      intro st hl hst it hit
      refine ihl _ ?_ ?_ it hit
      · intro p hp
        exact hl p (List.mem_cons_of_mem q hp)
      · exact hstep q (hl q (List.mem_cons_self q rest)) q.found st
          (hl q (List.mem_cons_self q rest)) hst
  exact hgen ps ⟨[], [], []⟩ hb (fun it hit => absurd hit (List.not_mem_nil it))

theorem detect_items_bounds (text : Str) :
    ∀ it ∈ (detectSensitiveInfo text).items,
      it.startIndex < it.endIndex ∧ it.endIndex ≤ text.length := by
  intro it hit
  exact scanCore_bounds text (patternRuns text) (patternRuns_bounded text) it
    ((detect_items_perm text).mem_iff.mp hit)

/-! ## Exclusion of ignored items from replacement and mapping -/

theorem joinParts_cons (p : Bool × Str) (parts : List (Bool × Str)) :
    joinParts (p :: parts) = p.2 ++ joinParts parts := by
  simp [joinParts]

theorem joinParts_append (a b : List (Bool × Str)) :
    joinParts (a ++ b) = joinParts a ++ joinParts b := by
  simp [joinParts]

theorem infix_of_mem_joinParts (parts : List (Bool × Str)) (p : Bool × Str)
    (hp : p ∈ parts) : p.2 <:+: joinParts parts := by
  obtain ⟨s, t, rfl⟩ := List.append_of_mem hp
  refine ⟨joinParts s, joinParts t, ?_⟩
  rw [joinParts_append, joinParts_cons]
  simp [List.append_assoc]

/-- Gluing a text segment with the adjacent slice extends the segment. -/
theorem seg_glue (text : Str) (pos s e : Nat) (hps : pos ≤ s) (hse : s ≤ e) :
    (text.drop pos).take (s - pos) ++ slice text s e =
      (text.drop pos).take (e - pos) := by
  have h1 := List.take_add (text.drop pos) (s - pos) (e - s)
  rw [show s - pos + (e - s) = e - pos by omega] at h1
  rw [h1]
  congr 1
  unfold slice
  congr 1
  rw [List.drop_drop]
  congr 1
  omega

theorem wellPlaced_cons_intro {text : Str} {pos : Nat} {x : SensitiveItem}
    {rest : List SensitiveItem} (h1 : pos ≤ x.startIndex)
    (h2 : x.startIndex < x.endIndex) (h3 : x.endIndex ≤ text.length)
    (h4 : x.original = slice text x.startIndex x.endIndex)
    (h5 : wellPlaced text x.endIndex rest = true) :
    wellPlaced text pos (x :: rest) = true := by
  unfold wellPlaced
  simp only [Bool.and_eq_true, decide_eq_true_eq, beq_iff_eq]
  exact ⟨⟨⟨⟨h1, h2⟩, h3⟩, h4⟩, h5⟩

theorem wellPlaced_mono (text : Str) (items : List SensitiveItem)
    (pos pos' : Nat) (hle : pos' ≤ pos)
    (hw : wellPlaced text pos items = true) :
    wellPlaced text pos' items = true := by
  cases items with
  | nil => rfl
  | cons x rest =>
    obtain ⟨h1, h2, h3, h4, h5⟩ := wellPlaced_cons hw
    exact wellPlaced_cons_intro (by omega) h2 h3 h4 h5

theorem wellPlaced_drop_middle (text : Str) (x : SensitiveItem) :
    ∀ (l1 l2 : List SensitiveItem) (pos : Nat),
      wellPlaced text pos (l1 ++ x :: l2) = true →
      wellPlaced text pos (l1 ++ l2) = true := by
  intro l1
  induction l1 with
  | nil =>
    intro l2 pos hw
    have hw' : wellPlaced text pos (x :: l2) = true := hw
    obtain ⟨h1, h2, h3, h4, h5⟩ := wellPlaced_cons hw'
    exact wellPlaced_mono text l2 x.endIndex pos (by omega) h5
  | cons z l1' ih =>
    intro l2 pos hw
    have hw' : wellPlaced text pos (z :: (l1' ++ x :: l2)) = true := hw
    obtain ⟨h1, h2, h3, h4, h5⟩ := wellPlaced_cons hw'
    exact wellPlaced_cons_intro h1 h2 h3 h4 (ih l2 z.endIndex h5)

theorem wellPlaced_set_replacement (text : Str) (x : SensitiveItem) (r : Str) :
    ∀ (l1 l2 : List SensitiveItem) (pos : Nat),
      wellPlaced text pos (l1 ++ x :: l2) = true →
      wellPlaced text pos (l1 ++ {x with replacement := r} :: l2) = true := by
  intro l1
  induction l1 with
  | nil =>
    intro l2 pos hw
    have hw' : wellPlaced text pos (x :: l2) = true := hw
    obtain ⟨h1, h2, h3, h4, h5⟩ := wellPlaced_cons hw'
    exact wellPlaced_cons_intro h1 h2 h3 h4 h5
  | cons z l1' ih =>
    intro l2 pos hw
    have hw' : wellPlaced text pos (z :: (l1' ++ x :: l2)) = true := hw
    obtain ⟨h1, h2, h3, h4, h5⟩ := wellPlaced_cons hw'
    exact wellPlaced_cons_intro h1 h2 h3 h4 (ih l2 z.endIndex h5)

/-- A well-placed list can be rebuilt from sortedness, disjointness, bounds
and faithfulness. -/
theorem wellPlaced_of_sorted (text : Str) :
    ∀ (items : List SensitiveItem) (pos : Nat),
      (∀ it ∈ items, pos ≤ it.startIndex) →
      (∀ it ∈ items, it.startIndex < it.endIndex ∧ it.endIndex ≤ text.length) →
      (∀ it ∈ items, it.original = slice text it.startIndex it.endIndex) →
      items.Pairwise (fun a b => a.startIndex ≤ b.startIndex) →
      items.Pairwise (fun a b =>
        rangesOverlap (a.startIndex, a.endIndex)
          (b.startIndex, b.endIndex) = false) →
      wellPlaced text pos items = true := by
  intro items
  induction items with
  | nil => intro pos _ _ _ _ _; rfl
  | cons x rest ih =>
    intro pos hpos hb hf hs ho
    obtain ⟨hsx, hsrest⟩ := List.pairwise_cons.mp hs
    obtain ⟨hox, horest⟩ := List.pairwise_cons.mp ho
    obtain ⟨hx1, hx2⟩ := hb x (List.mem_cons_self _ _)
    refine wellPlaced_cons_intro (hpos x (List.mem_cons_self _ _)) hx1 hx2
      (hf x (List.mem_cons_self _ _)) ?_
    refine ih x.endIndex ?_ (fun y hy => hb y (List.mem_cons_of_mem _ hy))
      (fun y hy => hf y (List.mem_cons_of_mem _ hy)) hsrest horest
    intro y hy
    have h1 := hsx y hy
    have h2 : (decide (x.startIndex < y.endIndex) &&
        decide (y.startIndex < x.endIndex)) = false := hox y hy
    have hyb := hb y (List.mem_cons_of_mem _ hy)
    by_cases hcase : x.endIndex ≤ y.startIndex
    · exact hcase
    · exfalso
      have hxd : decide (x.startIndex < y.endIndex) = true := by
        simp only [decide_eq_true_eq]
        omega
      have hyd : decide (y.startIndex < x.endIndex) = true := by
        simp only [decide_eq_true_eq]
        omega
      rw [hxd, hyd] at h2
      exact absurd h2 (by decide)

theorem detect_sorted_start (text : Str) :
    (detectSensitiveInfo text).items.Pairwise
      (fun a b => a.startIndex ≤ b.startIndex) := by
  have hs := sortLe_pairwise
    (fun a b : SensitiveItem => decide (a.startIndex ≤ b.startIndex))
    (fun a b hf => by
      simp only [decide_eq_false_iff_not, Nat.not_le] at hf
      simp only [decide_eq_true_eq]
      omega)
    (fun a b c h1 h2 => by
      simp only [decide_eq_true_eq] at h1 h2 ⊢
      omega)
    (scanCore text (patternRuns text)).items
  have heq : (detectSensitiveInfo text).items = sortLe
      (fun a b : SensitiveItem => decide (a.startIndex ≤ b.startIndex))
      (scanCore text (patternRuns text)).items := rfl
  rw [heq]
  exact hs.imp (fun hab => by
    simp only [decide_eq_true_eq] at hab
    exact hab)

theorem detect_nonoverlap (text : Str) :
    (detectSensitiveInfo text).items.Pairwise (fun a b =>
      rangesOverlap (a.startIndex, a.endIndex)
        (b.startIndex, b.endIndex) = false) := by
  obtain ⟨-, hpw, -, -, -⟩ := scanCore_inv text (patternRuns text)
  have hsym : Symmetric (fun a b : SensitiveItem =>
      rangesOverlap (a.startIndex, a.endIndex)
        (b.startIndex, b.endIndex) = false) := by
    intro a b hab
    rw [rangesOverlap_comm]
    exact hab
  exact ((detect_items_perm text).pairwise_iff (fun {a b} hab => hsym hab)).mpr hpw

theorem detect_faithful (text : Str) :
    ∀ it ∈ (detectSensitiveInfo text).items,
      it.original = slice text it.startIndex it.endIndex := by
  obtain ⟨-, -, -, -, hitems⟩ := scanCore_inv text (patternRuns text)
  intro it hit
  obtain ⟨-, hfa, -, -, -, -⟩ := hitems it ((detect_items_perm text).mem_iff.mp hit)
  exact hfa

theorem detect_ignored_false (text : Str) :
    ∀ it ∈ (detectSensitiveInfo text).items, it.ignored = false := by
  obtain ⟨-, -, -, -, hitems⟩ := scanCore_inv text (patternRuns text)
  intro it hit
  obtain ⟨-, -, -, hig, -, -⟩ := hitems it ((detect_items_perm text).mem_iff.mp hit)
  exact hig

theorem detect_nodup_repl (text : Str) :
    ((detectSensitiveInfo text).items.map (fun it => it.replacement)).Nodup := by
  obtain ⟨-, -, -, hnd, -⟩ := scanCore_inv text (patternRuns text)
  exact ((detect_items_perm text).map (fun it => it.replacement)).nodup_iff.mpr hnd

theorem detect_wellPlaced (text : Str) :
    wellPlaced text 0 (detectSensitiveInfo text).items = true :=
  wellPlaced_of_sorted text (detectSensitiveInfo text).items 0
    (fun it _ => Nat.zero_le _) (detect_items_bounds text)
    (detect_faithful text) (detect_sorted_start text) (detect_nonoverlap text)

theorem filter_not_ignored_nil :
    ∀ (items : List SensitiveItem), (∀ it ∈ items, it.ignored = true) →
      items.filter (fun it => !it.ignored) = [] := by
  intro items
  induction items with
  | nil => intro _; rfl
  | cons x xs ih =>
    intro h
    simp only [List.filter_cons, h x (List.mem_cons_self _ _), Bool.not_true]
    exact ih (fun y hy => h y (List.mem_cons_of_mem _ hy))

/-- With a fully-ignored item list the replacement pass is the identity. -/
theorem applyReplacements_all_ignored (t : Str) (items : List SensitiveItem)
    (h : ∀ it ∈ items, it.ignored = true) : applyReplacements t items = t := by
  unfold applyReplacements
  rw [filter_not_ignored_nil items h]
  rfl

/-- Toggling one item to ignored removes exactly it from the active list. -/
theorem applyReplacements_toggle_filter (text : Str)
    (l1 l2 : List SensitiveItem) (y : SensitiveItem) (hy : y.ignored = true)
    (h1 : ∀ it ∈ l1, it.ignored = false) (h2 : ∀ it ∈ l2, it.ignored = false) :
    applyReplacements text (l1 ++ y :: l2) =
      applyReplacements text (l1 ++ l2) := by
  unfold applyReplacements
  have hf : (l1 ++ y :: l2).filter (fun it => !it.ignored) =
      (l1 ++ l2).filter (fun it => !it.ignored) := by
    rw [List.filter_append, List.filter_append]
    congr 1
    simp [List.filter_cons, hy]
  rw [hf]

theorem itemParts_token_mem (text : Str) :
    ∀ (l1 l2 : List SensitiveItem) (x : SensitiveItem) (pos : Nat),
      ((true, x.replacement) : Bool × Str) ∈ itemParts text pos (l1 ++ x :: l2) := by
  intro l1
  induction l1 with
  | nil =>
    intro l2 x pos
    show _ ∈ (false, (text.drop pos).take (x.startIndex - pos)) ::
      (true, x.replacement) :: itemParts text x.endIndex l2
    exact List.mem_cons_of_mem _ (List.mem_cons_self _ _)
  | cons z l1' ih =>
    intro l2 x pos
    show _ ∈ (false, (text.drop pos).take (z.startIndex - pos)) ::
      (true, z.replacement) :: itemParts text z.endIndex (l1' ++ x :: l2)
    exact List.mem_cons_of_mem _ (List.mem_cons_of_mem _ (ih l2 x z.endIndex))

/-- Pushing the starting offset of a decomposition forward peels off a text
segment, provided no item starts before the new offset. -/
theorem joinParts_itemParts_prepend (text : Str) (l : List SensitiveItem)
    (pos q : Nat) (hpq : pos ≤ q)
    (hhead : ∀ x l', l = x :: l' → q ≤ x.startIndex) :
    joinParts (itemParts text pos l) =
      (text.drop pos).take (q - pos) ++ joinParts (itemParts text q l) := by
  cases l with
  | nil =>
    show joinParts [((false, text.drop pos) : Bool × Str)] =
      (text.drop pos).take (q - pos) ++
        joinParts [((false, text.drop q) : Bool × Str)]
    have hjn : joinParts ([] : List (Bool × Str)) = [] := rfl
    rw [joinParts_cons, joinParts_cons, hjn, List.append_nil, List.append_nil]
    have hd : (text.drop pos).drop (q - pos) = text.drop q := by
      rw [List.drop_drop]
      congr 1
      omega
    rw [← hd]
    exact (List.take_append_drop _ _).symm
  | cons x l' =>
    have hqx : q ≤ x.startIndex := hhead x l' rfl
    show joinParts ((false, (text.drop pos).take (x.startIndex - pos)) ::
        (true, x.replacement) :: itemParts text x.endIndex l') =
      (text.drop pos).take (q - pos) ++
        joinParts ((false, (text.drop q).take (x.startIndex - q)) ::
          (true, x.replacement) :: itemParts text x.endIndex l')
    rw [joinParts_cons, joinParts_cons, joinParts_cons, joinParts_cons]
    rw [← seg_glue text pos q x.startIndex hpq hqx]
    simp [slice, List.append_assoc]

/-- Dropping an item whose replacement is exactly its own slice of the text
does not change the flattened decomposition. -/
theorem joinParts_itemParts_middle (text : Str) (x : SensitiveItem)
    (hrepl : x.replacement = slice text x.startIndex x.endIndex) :
    ∀ (l1 l2 : List SensitiveItem) (pos : Nat),
      wellPlaced text pos (l1 ++ x :: l2) = true →
      joinParts (itemParts text pos (l1 ++ x :: l2)) =
        joinParts (itemParts text pos (l1 ++ l2)) := by
  intro l1
  induction l1 with
  | nil =>
    intro l2 pos hw
    have hw' : wellPlaced text pos (x :: l2) = true := hw
    obtain ⟨h1, h2, h3, h4, h5⟩ := wellPlaced_cons hw'
    show joinParts ((false, (text.drop pos).take (x.startIndex - pos)) ::
        (true, x.replacement) :: itemParts text x.endIndex l2) =
      joinParts (itemParts text pos l2)
    have hhead' : ∀ y l', l2 = y :: l' → x.endIndex ≤ y.startIndex := by
      intro y l' hy
      subst hy
      exact (wellPlaced_cons h5).1
    rw [joinParts_cons, joinParts_cons]
    rw [joinParts_itemParts_prepend text l2 pos x.endIndex (by omega) hhead']
    rw [hrepl]
    rw [← seg_glue text pos x.startIndex x.endIndex h1 (by omega)]
    simp [List.append_assoc]
  | cons z l1' ih =>
    intro l2 pos hw
    have hw' : wellPlaced text pos (z :: (l1' ++ x :: l2)) = true := hw
    obtain ⟨h1, h2, h3, h4, h5⟩ := wellPlaced_cons hw'
    show joinParts ((false, (text.drop pos).take (z.startIndex - pos)) ::
        (true, z.replacement) :: itemParts text z.endIndex (l1' ++ x :: l2)) =
      joinParts ((false, (text.drop pos).take (z.startIndex - pos)) ::
        (true, z.replacement) :: itemParts text z.endIndex (l1' ++ l2))
    rw [joinParts_cons, joinParts_cons, joinParts_cons, joinParts_cons]
    rw [ih l2 z.endIndex h5]

/-- Folding the mapping builder over a leading ignored item changes
nothing. -/
theorem buildRM_fold_ignored_cons (y : SensitiveItem) (hy : y.ignored = true)
    (l : List SensitiveItem) (m : ReplacementMapping) :
    (y :: l).foldl
        (fun m it =>
          if !it.ignored then setEntry m it.replacement it.original else m) m =
      l.foldl
        (fun m it =>
          if !it.ignored then setEntry m it.replacement it.original else m) m := by
  rw [List.foldl_cons]
  congr 1
  simp [hy]

theorem buildRM_drop_ignored_middle (l1 l2 : List SensitiveItem)
    (y : SensitiveItem) (hy : y.ignored = true) :
    buildReplacementMapping (l1 ++ y :: l2) =
      buildReplacementMapping (l1 ++ l2) := by
  unfold buildReplacementMapping
  rw [List.foldl_append, List.foldl_append]
  exact buildRM_fold_ignored_cons y hy l2 _

/-- C3: only non-ignored items participate in replacement and mapping
construction: applyReplacements with an empty item list is the identity, with
a fully-ignored list it is the identity, and for any item list produced by
one detect pass, split as l1 ++ x :: l2, toggling x's ignored flag yields the
text in which every other item is replaced while x's position carries its
original substring verbatim (the decomposition with x's slot holding
x.original); that original is a literal substring of the output, and x's
placeholder is absent from the mapping buildReplacementMapping builds. -/
theorem C3_ignored_excluded (text : Str) (l1 l2 : List SensitiveItem)
    (x : SensitiveItem)
    (hsplit : (detectSensitiveInfo text).items = l1 ++ x :: l2) :
    (∀ t : Str, applyReplacements t [] = t) ∧
    (∀ (t : Str) (its : List SensitiveItem),
      (∀ it ∈ its, it.ignored = true) → applyReplacements t its = t) ∧
    applyReplacements text (l1 ++ {x with ignored := true} :: l2) =
      joinParts (itemParts text 0
        (l1 ++ {x with replacement := x.original} :: l2)) ∧
    strIncludes
      (applyReplacements text (l1 ++ {x with ignored := true} :: l2))
      x.original = true ∧
    containsEntry
      (buildReplacementMapping (l1 ++ {x with ignored := true} :: l2))
      x.replacement = false := by
  have hig := detect_ignored_false text
  have hfa := detect_faithful text
  have hnd := detect_nodup_repl text
  have hw0 : wellPlaced text 0 (l1 ++ x :: l2) = true := by
    rw [← hsplit]
    exact detect_wellPlaced text
  rw [hsplit] at hig hfa hnd
  have hig1 : ∀ it ∈ l1, it.ignored = false := fun it hit =>
    hig it (List.mem_append.mpr (Or.inl hit))
  have hig2 : ∀ it ∈ l2, it.ignored = false := fun it hit =>
    hig it (List.mem_append.mpr (Or.inr (List.mem_cons_of_mem _ hit)))
  have higx : ({x with ignored := true} : SensitiveItem).ignored = true := rfl
  have hig12 : ∀ it ∈ l1 ++ l2, it.ignored = false := by
    intro it hit
    rcases List.mem_append.mp hit with h | h
    · exact hig1 it h
    · exact hig2 it h
  have hw12 : wellPlaced text 0 (l1 ++ l2) = true :=
    wellPlaced_drop_middle text x l1 l2 0 hw0
  have htog : applyReplacements text (l1 ++ {x with ignored := true} :: l2) =
      applyReplacements text (l1 ++ l2) :=
    applyReplacements_toggle_filter text l1 l2 _ higx hig1 hig2
  have happ : applyReplacements text (l1 ++ l2) =
      joinParts (itemParts text 0 (l1 ++ l2)) :=
    applyReplacements_itemParts text (l1 ++ l2) hig12 hw12
  have hx' : ({x with replacement := x.original} : SensitiveItem).replacement =
      slice text ({x with replacement := x.original} : SensitiveItem).startIndex
        ({x with replacement := x.original} : SensitiveItem).endIndex := by
    show x.original = slice text x.startIndex x.endIndex
    exact hfa x (List.mem_append.mpr (Or.inr (List.mem_cons_self _ _)))
  have hwsub : wellPlaced text 0
      (l1 ++ {x with replacement := x.original} :: l2) = true :=
    wellPlaced_set_replacement text x x.original l1 l2 0 hw0
  have hmid : joinParts (itemParts text 0
      (l1 ++ {x with replacement := x.original} :: l2)) =
      joinParts (itemParts text 0 (l1 ++ l2)) :=
    joinParts_itemParts_middle text _ hx' l1 l2 0 hwsub
  refine ⟨fun t => rfl, ?_, ?_, ?_, ?_⟩
  · intro t its hall
    exact applyReplacements_all_ignored t its hall
  · rw [htog, happ, hmid]
  · rw [htog, happ, ← hmid]
    refine (strIncludes_iff _ _).mpr ?_
    have hmem : ((true, x.original) : Bool × Str) ∈
        itemParts text 0 (l1 ++ {x with replacement := x.original} :: l2) :=
      itemParts_token_mem text l1 l2 {x with replacement := x.original} 0
    exact infix_of_mem_joinParts _ _ hmem
  · rw [buildRM_drop_ignored_middle l1 l2 _ higx]
    simp only [List.map_append, List.map_cons] at hnd
    have hperm : (List.map (fun it => it.replacement) l1 ++
        x.replacement :: List.map (fun it => it.replacement) l2).Perm
        (x.replacement :: (List.map (fun it => it.replacement) l1 ++
          List.map (fun it => it.replacement) l2)) := List.perm_middle
    obtain ⟨hnm, hnd12'⟩ := List.nodup_cons.mp (hperm.nodup_iff.mp hnd)
    have hnd12 : ((l1 ++ l2).map (fun it => it.replacement)).Nodup := by
      rw [List.map_append]
      exact hnd12'
    rw [buildReplacementMapping_eq (l1 ++ l2) hig12 hnd12]
    cases hc : containsEntry
        ((l1 ++ l2).map (fun it => (it.replacement, it.original)))
        x.replacement with
    | false => rfl
    | true =>
      exfalso
      have hc' : ((l1 ++ l2).map (fun it => (it.replacement, it.original))).any
          (fun kv => kv.1 == x.replacement) = true := hc
      obtain ⟨kv, hkv, hkeq⟩ := List.any_eq_true.mp hc'
      obtain ⟨it, hit, rfl⟩ := List.mem_map.mp hkv
      have heq : it.replacement = x.replacement := beq_iff_eq.mp hkeq
      have : x.replacement ∈ (l1 ++ l2).map (fun it => it.replacement) :=
        heq ▸ List.mem_map_of_mem (fun z => z.replacement) hit
      rw [List.map_append] at this
      exact hnm this

/-- C3 witness: for the concrete scan of 123-45-6789, toggling the single
ssn item to ignored keeps the original digits in the output verbatim and
keeps its placeholder out of the built mapping. -/
theorem C3_ignored_excluded_witness :
    strIncludes
      (applyReplacements (str "123-45-6789")
        [⟨str "ssn-0-11", SType.ssn, str "Social Security Number",
          str "123-45-6789", str "[SSN_1]", 0, 11, true⟩])
      (str "123-45-6789") = true ∧
    containsEntry
      (buildReplacementMapping
        [⟨str "ssn-0-11", SType.ssn, str "Social Security Number",
          str "123-45-6789", str "[SSN_1]", 0, 11, true⟩])
      (str "[SSN_1]") = false := by
  have h := C3_ignored_excluded (str "123-45-6789") [] []
    ⟨str "ssn-0-11", SType.ssn, str "Social Security Number",
      str "123-45-6789", str "[SSN_1]", 0, 11, false⟩ (by decide)
  exact ⟨h.2.2.2.1, h.2.2.2.2⟩

/-- C10: for every input text, every item detect returns has a nonempty
in-bounds half-open range (startIndex < endIndex ≤ text length), its original
field is exactly the input text at that range, its identifier is derived from
its category and span by mkId, and two items of one scan carry equal
identifiers only if they agree on category, start and end, so ids are stable
within one scan. -/
theorem C10_item_faithfulness (text : Str) :
    (∀ it ∈ (detectSensitiveInfo text).items,
      it.startIndex < it.endIndex ∧ it.endIndex ≤ text.length ∧
      it.original = slice text it.startIndex it.endIndex ∧
      it.id = mkId it.type it.startIndex it.endIndex) ∧
    (∀ a ∈ (detectSensitiveInfo text).items,
      ∀ b ∈ (detectSensitiveInfo text).items,
        a.id = b.id →
          a.type = b.type ∧ a.startIndex = b.startIndex ∧
            a.endIndex = b.endIndex) := by
  obtain ⟨-, -, -, -, hitems⟩ := scanCore_inv text (patternRuns text)
  constructor
  · intro it hit
    obtain ⟨hb1, hb2⟩ := detect_items_bounds text it hit
    obtain ⟨-, hfa, hid, -, -, -⟩ :=
      hitems it ((detect_items_perm text).mem_iff.mp hit)
    exact ⟨hb1, hb2, hfa, hid⟩
  · intro a ha b hb hab
    obtain ⟨-, -, hida, -, -, -⟩ :=
      hitems a ((detect_items_perm text).mem_iff.mp ha)
    obtain ⟨-, -, hidb, -, -, -⟩ :=
      hitems b ((detect_items_perm text).mem_iff.mp hb)
    rw [hida, hidb] at hab
    exact mkId_inj hab

/-- C10 witness: the ssn item of a concrete scan is in bounds, carries the
matched substring as its original and the derived identifier. -/
theorem C10_item_faithfulness_witness :
    0 < 11 ∧ 11 ≤ (str "123-45-6789").length ∧
      str "123-45-6789" = slice (str "123-45-6789") 0 11 ∧
      str "ssn-0-11" = mkId SType.ssn 0 11 :=
  (C10_item_faithfulness (str "123-45-6789")).1
    ⟨str "ssn-0-11", SType.ssn, str "Social Security Number",
      str "123-45-6789", str "[SSN_1]", 0, 11, false⟩ (by decide)

/-- C9: detect applied to the exact Scenario A input returns exactly two
items, the email item before the phone item in the sorted list, and the
anonymized text with the two numbered placeholders. -/
theorem C9_scenario_A :
    detectSensitiveInfo
        (str "Contact me at jane.doe@example.com or call 415-555-0199") =
      ⟨true,
       [⟨str "email-14-34", .email, str "Email Address",
          str "jane.doe@example.com", str "[EMAIL_1]", 14, 34, false⟩,
        ⟨str "phone-43-55", .phone, str "Phone Number",
          str "415-555-0199", str "[PHONE_1]", 43, 55, false⟩],
       str "Contact me at [EMAIL_1] or call [PHONE_1]"⟩ := by
  rfl

end Guardrail
